import Mathlib

/-
Shallow embedding of the Minesweeper game logic of
src/minesweeper_functions.py (class MinesweeperGame).

Modelling decisions, stated once here:
* A tkinter button is modelled by its two attributes the game logic reads or
  writes: its state (tk.NORMAL = hidden = `disabled = false`, tk.DISABLED =
  revealed = `disabled = true`) and its text.  Colours are ignored.
* Python list indexing `l[i]` accepts indices in [-len l, len l), wrapping
  negative ones, and raises IndexError otherwise; `pyIdx` models this,
  with `none` standing for the raised IndexError.
* `random.randint(0, n-1)` is modelled by an oracle stream `rnd : Nat → Nat × Nat`
  of draws, reduced modulo the grid dimensions; `randint` on an empty range
  (grid dimension 0) raises, modelled as `none`.
* The unbounded `while` loop of `generate_mines` and the unbounded recursion
  of `reveal` are modelled with a fuel parameter; `none` means the
  computation did not finish within the given fuel.  Theorems about
  terminating runs hold for every sufficient fuel, and non-termination is
  expressed as returning `none` for every fuel.
* `messagebox.showinfo` calls are recorded in an event trace `messages`;
  the spec-level game status is read off that trace (`statusOf`).
-/

namespace Minesweeper

/-- Python list indexing: a nonnegative index within range is used as is, a
negative index in [-n, 0) wraps from the end, anything else raises IndexError
(modelled as `none`). -/
def pyIdx (n : Nat) (i : Int) : Option Nat :=
  if 0 ≤ i ∧ i < (n : Int) then some i.toNat
  else if -(n : Int) ≤ i ∧ i < 0 then some (i + n).toNat
  else none

/-- The two tkinter button attributes the game logic uses: `disabled` is true
once the button was put into tk.DISABLED state (a revealed cell), and `text`
is the displayed label. -/
structure MSButton where
  disabled : Bool
  text : String
deriving DecidableEq

/-- The two messagebox.showinfo dialogs the game can show. -/
inductive Msg where
  | gameOver : Msg
  | youWin : Msg
deriving DecidableEq

/-- The spec-level game status, read off the observable behaviour. -/
inductive Status where
  | inProgress : Status
  | won : Status
  | lost : Status
deriving DecidableEq

/-- The mutable state of a MinesweeperGame object: the fields of the Python
class (minus the pure GUI plumbing), plus the trace of messagebox calls. -/
structure MSState where
  rows : Nat
  cols : Nat
  num_mines : Nat
  buttons : List (List MSButton)
  board : List (List Nat)
  mines : Finset (Nat × Nat)
  board_clickable : Bool
  game_over_flag : Bool
  messages : List Msg
deriving DecidableEq

/-- The button at grid position `p` (direct nonnegative indexing). -/
def btnAt? (s : MSState) (p : Nat × Nat) : Option MSButton :=
  (s.buttons.get? p.1).bind (fun row => row.get? p.2)

/-- Whether the cell at grid position `p` is revealed (tk.DISABLED). -/
def revealedAt (s : MSState) (p : Nat × Nat) : Option Bool :=
  (btnAt? s p).map (fun b => b.disabled)

/-- The displayed text of the button at grid position `p`. -/
def textAt? (s : MSState) (p : Nat × Nat) : Option String :=
  (btnAt? s p).map (fun b => b.text)

/-- The stored adjacency count at grid position `p`. -/
def boardAt? (s : MSState) (p : Nat × Nat) : Option Nat :=
  (s.board.get? p.1).bind (fun row => row.get? p.2)

/-- The Python membership test `(row, col) in self.mines` for arbitrary
integer coordinates: the mine set holds pairs of nonnegative integers, so a
tuple with a negative component is never a member. -/
def minesContains (mines : Finset (Nat × Nat)) (row col : Int) : Bool :=
  if 0 ≤ row ∧ 0 ≤ col then decide ((row.toNat, col.toNat) ∈ mines) else false

/-- The number of buttons still in tk.NORMAL state, as counted by check_win:
a sum of per-button indicators over the whole grid. -/
def hiddenCount (s : MSState) : Nat :=
  (s.buttons.map (fun row =>
    (row.map (fun btn => if btn.disabled then 0 else 1)).sum)).sum

/-- The loop of generate_mines: keep drawing random cells until the mine set
has num_mines elements.  `fuel` bounds the number of iterations; `k` indexes
the oracle stream.  Drawing from an empty range (a zero dimension) raises
ValueError, modelled as `none`. -/
def genMinesAux (rows cols num_mines : Nat) (rnd : Nat → Nat × Nat) :
    Nat → Nat → Finset (Nat × Nat) → Option (Finset (Nat × Nat))
  | 0, _, acc => if acc.card < num_mines then none else some acc
  | fuel + 1, k, acc =>
    if acc.card < num_mines then
      if rows = 0 ∨ cols = 0 then none
      else genMinesAux rows cols num_mines rnd fuel (k + 1)
        (insert ((rnd k).1 % rows, (rnd k).2 % cols) acc)
    else some acc

/-- generate_mines: sample random cells until num_mines distinct ones. -/
def generate_mines (rows cols num_mines : Nat) (rnd : Nat → Nat × Nat)
    (fuel : Nat) : Option (Finset (Nat × Nat)) :=
  genMinesAux rows cols num_mines rnd fuel 0 ∅

/-- The nine offsets (i, j) for i, j in range(-1, 2), in Python's loop order. -/
def offsets9 : List (Int × Int) :=
  [(-1, -1), (-1, 0), (-1, 1), (0, -1), (0, 0), (0, 1), (1, -1), (1, 0), (1, 1)]

/-- The inner sum of update_counts: the number of offsets (i, j) with
(row + i, col + j) in the mine set. -/
def neighbor_count (mines : Finset (Nat × Nat)) (row col : Nat) : Nat :=
  (offsets9.map (fun o =>
    if minesContains mines ((row : Int) + o.1) ((col : Int) + o.2) then 1 else 0)).sum

/-- update_counts applied to the all-zero board new_game just built: every
non-mine cell gets its neighbour tally, mine cells keep their initial 0. -/
def update_counts (rows cols : Nat) (mines : Finset (Nat × Nat)) :
    List (List Nat) :=
  (List.range rows).map (fun r =>
    (List.range cols).map (fun c =>
      if (r, c) ∈ mines then 0 else neighbor_count mines r c))

/-- new_game: install the dialog-supplied settings, build a fresh all-zero
board and a fresh grid of enabled blank buttons, then run generate_mines and
update_counts.  The board_clickable / game_over_flag fields and the message
trace are untouched by the Python code. -/
def new_game (rows cols num_mines : Nat) (rnd : Nat → Nat × Nat) (fuel : Nat)
    (s : MSState) : Option MSState :=
  (generate_mines rows cols num_mines rnd fuel).map fun mines =>
    { rows := rows
      cols := cols
      num_mines := num_mines
      buttons := List.replicate rows (List.replicate cols ⟨false, ""⟩)
      board := update_counts rows cols mines
      mines := mines
      board_clickable := s.board_clickable
      game_over_flag := s.game_over_flag
      messages := s.messages }

/-- The state set up by __init__ before it calls new_game. -/
def initial_state : MSState :=
  { rows := 0, cols := 0, num_mines := 0, buttons := [], board := [],
    mines := ∅, board_clickable := true, game_over_flag := false,
    messages := [] }

/-- A freshly constructed game: __init__ followed by its new_game call. -/
def init_game (rows cols num_mines : Nat) (rnd : Nat → Nat × Nat)
    (fuel : Nat) : Option MSState :=
  new_game rows cols num_mines rnd fuel initial_state

/-- List.mapIdx written as explicit recursion with a running index, so that
its pointwise behaviour is easy to reason about. -/
def mapIdxFrom (f : Nat → α → α) : Nat → List α → List α
  | _, [] => []
  | i, a :: l => f i a :: mapIdxFrom f (i + 1) l

/-- game_over: disable every mine button and label it "*", show the Game Over
dialog, clear board_clickable and set game_over_flag.  Python iterates the
mine set in unspecified order; since each iteration touches a distinct cell
the net effect is this order-independent pointwise update. -/
def game_over (s : MSState) : MSState :=
  { s with
    buttons := mapIdxFrom (fun r row =>
      mapIdxFrom (fun c btn =>
        if (r, c) ∈ s.mines then ⟨true, "*"⟩ else btn) 0 row) 0 s.buttons
    messages := s.messages ++ [Msg.gameOver]
    board_clickable := false
    game_over_flag := true }

/-- check_win: if the number of still-enabled buttons equals num_mines, show
the You Win dialog, clear board_clickable and set game_over_flag. -/
def check_win (s : MSState) : MSState :=
  if hiddenCount s = s.num_mines then
    { s with
      messages := s.messages ++ [Msg.youWin]
      board_clickable := false
      game_over_flag := true }
  else s

/-- reveal, with a fuel bound on the recursion depth.  Faithful to the Python
code: look the button up (possibly raising IndexError, possibly wrapping a
negative index), return unchanged if it is already disabled, otherwise read
the count, disable the button (labelling it with the count when positive),
and when the count is zero recurse on every offset whose position passes the
0 <= row + i < self.rows and 0 <= col + j < self.cols check computed from the
original, possibly negative, coordinates. -/
def revealF : Nat → MSState → Int → Int → Option MSState
  | 0, _, _, _ => none
  | fuel + 1, s, row, col =>
    (pyIdx s.buttons.length row).bind fun ri =>
    (s.buttons.get? ri).bind fun brow =>
    (pyIdx brow.length col).bind fun ci =>
    (brow.get? ci).bind fun btn =>
    if btn.disabled then some s
    else
      (pyIdx s.board.length row).bind fun bi =>
      (s.board.get? bi).bind fun bdrow =>
      (pyIdx bdrow.length col).bind fun cj =>
      (bdrow.get? cj).bind fun count =>
      let btn' : MSButton :=
        if 0 < count then ⟨true, toString count⟩ else ⟨true, btn.text⟩
      let s1 : MSState :=
        { s with buttons := s.buttons.set ri (brow.set ci btn') }
      if 0 < count then some s1
      else
        offsets9.foldlM (fun t o =>
          if 0 ≤ row + o.1 ∧ row + o.1 < (s.rows : Int) ∧
             0 ≤ col + o.2 ∧ col + o.2 < (s.cols : Int) then
            revealF fuel t (row + o.1) (col + o.2)
          else some t) s1

/-- The body of reveal's neighbour loop, abstracted over the captured
self.rows / self.cols and the original click coordinates. -/
def floodStep (f : Nat) (rows cols : Nat) (row col : Int) :
    MSState → Int × Int → Option MSState := fun t o =>
  if 0 ≤ row + o.1 ∧ row + o.1 < (rows : Int) ∧
     0 ≤ col + o.2 ∧ col + o.2 < (cols : Int) then
    revealF f t (row + o.1) (col + o.2)
  else some t

/-- click: a mine hit runs game_over, anything else runs reveal followed by
check_win.  Neither branch consults board_clickable or game_over_flag. -/
def click (fuel : Nat) (s : MSState) (row col : Int) : Option MSState :=
  if minesContains s.mines row col then some (game_over s)
  else (revealF fuel s row col).map check_win

/-- The spec-level status of a state: the last terminal dialog shown, if any.
game_over shows the Game Over dialog (Lost), check_win the You Win dialog
(Won); nothing in the code ever retracts either. -/
def statusOf (s : MSState) : Status :=
  match s.messages.getLast? with
  | some Msg.gameOver => Status.lost
  | some Msg.youWin => Status.won
  | none => Status.inProgress

/-! ### Spec-side vocabulary -/

/-- A position lies on the grid. -/
def inGrid (s : MSState) (p : Nat × Nat) : Prop :=
  p.1 < s.rows ∧ p.2 < s.cols

instance (s : MSState) (p : Nat × Nat) : Decidable (inGrid s p) := by
  unfold inGrid; infer_instance

/-- Two distinct grid positions are 8-neighbours (Chebyshev distance one). -/
def adj8 (p q : Nat × Nat) : Prop :=
  p ≠ q ∧ p.1 ≤ q.1 + 1 ∧ q.1 ≤ p.1 + 1 ∧ p.2 ≤ q.2 + 1 ∧ q.2 ≤ p.2 + 1

instance (p q : Nat × Nat) : Decidable (adj8 p q) := by
  unfold adj8; infer_instance

/-- The spec's true neighbour-mine tally of a cell: the number of mine cells
among its in-bounds 8-neighbours. -/
def trueTally (rows cols : Nat) (mines : Finset (Nat × Nat)) (r c : Nat) : Nat :=
  (mines.filter (fun q => adj8 (r, c) q ∧ q.1 < rows ∧ q.2 < cols)).card

/-- One step between zero-count cells: `b` is an in-bounds 8-neighbour of `a`
with stored count zero. -/
def zeroStep (s : MSState) (a b : Nat × Nat) : Prop :=
  inGrid s b ∧ adj8 a b ∧ boardAt? s b = some 0

/-- Membership in the maximal 8-connected region of zero-count cells
containing `c` (the set named by the original flood-fill claim). -/
def inZeroRegion (s : MSState) (c p : Nat × Nat) : Prop :=
  Relation.ReflTransGen (zeroStep s) c p

/-- A non-zero-count in-bounds cell bordering the zero region of `c`. -/
def inBorder (s : MSState) (c p : Nat × Nat) : Prop :=
  inGrid s p ∧ (∃ n, boardAt? s p = some n ∧ n ≠ 0) ∧
    ∃ q, inZeroRegion s c q ∧ adj8 q p

/-- The set of cells named by the original flood-fill claim: the maximal
zero region of the clicked cell plus its non-zero border. -/
def origClaimSet (s : MSState) (c p : Nat × Nat) : Prop :=
  inZeroRegion s c p ∨ inBorder s c p

/-- One step between zero-count cells that are still hidden. -/
def hiddenZeroStep (s : MSState) (a b : Nat × Nat) : Prop :=
  zeroStep s a b ∧ revealedAt s b = some false

/-- Membership in the 8-connected region of still-hidden zero-count cells
containing `c` (flood propagation stops at already-revealed cells). -/
def inRegionH (s : MSState) (c p : Nat × Nat) : Prop :=
  Relation.ReflTransGen (hiddenZeroStep s) c p

/-- A still-hidden non-zero-count in-bounds cell bordering the hidden zero
region of `c`. -/
def inHiddenBorder (s : MSState) (c p : Nat × Nat) : Prop :=
  inGrid s p ∧ revealedAt s p = some false ∧
    (∃ n, boardAt? s p = some n ∧ n ≠ 0) ∧
    ∃ q, inRegionH s c q ∧ adj8 q p

/-- The set of cells a click on a hidden zero-count cell actually reveals:
the hidden zero region plus its still-hidden border. -/
def amendedSet (s : MSState) (c p : Nat × Nat) : Prop :=
  inRegionH s c p ∨ inHiddenBorder s c p

/-- Shape well-formedness: the button and board grids have the advertised
dimensions. -/
def WFShape (s : MSState) : Prop :=
  s.buttons.length = s.rows ∧ (∀ row ∈ s.buttons, row.length = s.cols) ∧
  s.board.length = s.rows ∧ (∀ row ∈ s.board, row.length = s.cols)

instance (s : MSState) : Decidable (WFShape s) := by
  unfold WFShape; infer_instance

/-- Well-formedness: shapes match and every mine is on the grid. -/
def WF (s : MSState) : Prop :=
  WFShape s ∧ ∀ p ∈ s.mines, p.1 < s.rows ∧ p.2 < s.cols

instance (s : MSState) : Decidable (WF s) := by
  unfold WF; infer_instance

/-! ### Concrete example games -/

/-- An oracle stream that always draws cell (0, 0). -/
def rnd00 : Nat → Nat × Nat := fun _ => (0, 0)

/-- An oracle stream that always draws cell (2, 0). -/
def rndC6 : Nat → Nat × Nat := fun _ => (2, 0)

/-- The fresh 2 by 2 game with one mine at (0, 0). -/
def exA0 : MSState :=
  { rows := 2, cols := 2, num_mines := 1,
    buttons := [[⟨false, ""⟩, ⟨false, ""⟩], [⟨false, ""⟩, ⟨false, ""⟩]],
    board := [[0, 1], [1, 1]],
    mines := {(0, 0)},
    board_clickable := true, game_over_flag := false, messages := [] }

/-- `exA0` after the losing click on the mine at (0, 0). -/
def exA1 : MSState :=
  { rows := 2, cols := 2, num_mines := 1,
    buttons := [[⟨true, "*"⟩, ⟨false, ""⟩], [⟨false, ""⟩, ⟨false, ""⟩]],
    board := [[0, 1], [1, 1]],
    mines := {(0, 0)},
    board_clickable := false, game_over_flag := true,
    messages := [Msg.gameOver] }

/-- `exA1` after a further click on (1, 1): the cell is revealed even though
the game is lost. -/
def exA2 : MSState :=
  { rows := 2, cols := 2, num_mines := 1,
    buttons := [[⟨true, "*"⟩, ⟨false, ""⟩], [⟨false, ""⟩, ⟨true, "1"⟩]],
    board := [[0, 1], [1, 1]],
    mines := {(0, 0)},
    board_clickable := false, game_over_flag := true,
    messages := [Msg.gameOver] }

/-- `exA1` after a further click on (0, 1). -/
def exB2 : MSState :=
  { rows := 2, cols := 2, num_mines := 1,
    buttons := [[⟨true, "*"⟩, ⟨true, "1"⟩], [⟨false, ""⟩, ⟨false, ""⟩]],
    board := [[0, 1], [1, 1]],
    mines := {(0, 0)},
    board_clickable := false, game_over_flag := true,
    messages := [Msg.gameOver] }

/-- `exB2` after a further click on (1, 0): the hidden count reaches
num_mines and check_win declares the lost game won. -/
def exB3 : MSState :=
  { rows := 2, cols := 2, num_mines := 1,
    buttons := [[⟨true, "*"⟩, ⟨true, "1"⟩], [⟨true, "1"⟩, ⟨false, ""⟩]],
    board := [[0, 1], [1, 1]],
    mines := {(0, 0)},
    board_clickable := false, game_over_flag := true,
    messages := [Msg.gameOver, Msg.youWin] }

/-- `exA0` after a click on (-1, -1), which wraps to cell (1, 1). -/
def exC3 : MSState :=
  { rows := 2, cols := 2, num_mines := 1,
    buttons := [[⟨false, ""⟩, ⟨false, ""⟩], [⟨false, ""⟩, ⟨true, "1"⟩]],
    board := [[0, 1], [1, 1]],
    mines := {(0, 0)},
    board_clickable := true, game_over_flag := false, messages := [] }

/-- The result of new_game on `exA1`: fresh grid, but the board_clickable,
game_over_flag and dialog-trace fields keep their lost-game values. -/
def exB : MSState :=
  { rows := 2, cols := 2, num_mines := 1,
    buttons := [[⟨false, ""⟩, ⟨false, ""⟩], [⟨false, ""⟩, ⟨false, ""⟩]],
    board := [[0, 1], [1, 1]],
    mines := {(0, 0)},
    board_clickable := false, game_over_flag := true,
    messages := [Msg.gameOver] }

/-- The fresh 7 by 1 game with one mine at (2, 0). -/
def exD0 : MSState :=
  { rows := 7, cols := 1, num_mines := 1,
    buttons := [[⟨false, ""⟩], [⟨false, ""⟩], [⟨false, ""⟩], [⟨false, ""⟩],
                [⟨false, ""⟩], [⟨false, ""⟩], [⟨false, ""⟩]],
    board := [[0], [1], [0], [1], [0], [0], [0]],
    mines := {(2, 0)},
    board_clickable := true, game_over_flag := false, messages := [] }

/-- `exD0` after a click on (-2, 0), which wraps to cell (5, 0) and reveals
only it: the bounds check of the flood recursion uses the original negative
coordinate, so no neighbour passes it. -/
def exD1 : MSState :=
  { rows := 7, cols := 1, num_mines := 1,
    buttons := [[⟨false, ""⟩], [⟨false, ""⟩], [⟨false, ""⟩], [⟨false, ""⟩],
                [⟨false, ""⟩], [⟨true, ""⟩], [⟨false, ""⟩]],
    board := [[0], [1], [0], [1], [0], [0], [0]],
    mines := {(2, 0)},
    board_clickable := true, game_over_flag := false, messages := [] }

/-- `exD1` after a click on the hidden zero cell (4, 0): the flood is blocked
by the already-revealed (5, 0), so (6, 0) stays hidden. -/
def exD2 : MSState :=
  { rows := 7, cols := 1, num_mines := 1,
    buttons := [[⟨false, ""⟩], [⟨false, ""⟩], [⟨false, ""⟩], [⟨true, "1"⟩],
                [⟨true, ""⟩], [⟨true, ""⟩], [⟨false, ""⟩]],
    board := [[0], [1], [0], [1], [0], [0], [0]],
    mines := {(2, 0)},
    board_clickable := true, game_over_flag := false, messages := [] }

/-- The fresh 3 by 3 game with one mine at (0, 0). -/
def exE0 : MSState :=
  { rows := 3, cols := 3, num_mines := 1,
    buttons := [[⟨false, ""⟩, ⟨false, ""⟩, ⟨false, ""⟩],
                [⟨false, ""⟩, ⟨false, ""⟩, ⟨false, ""⟩],
                [⟨false, ""⟩, ⟨false, ""⟩, ⟨false, ""⟩]],
    board := [[0, 1, 0], [1, 1, 0], [0, 0, 0]],
    mines := {(0, 0)},
    board_clickable := true, game_over_flag := false, messages := [] }

/-- The game new_game builds for a 1 by 1 grid with mineCount 1 = rows*cols:
initialisation proceeds normally and every cell is a mine. -/
def exC2 : MSState :=
  { rows := 1, cols := 1, num_mines := 1,
    buttons := [[⟨false, ""⟩]],
    board := [[0]],
    mines := {(0, 0)},
    board_clickable := true, game_over_flag := false, messages := [] }

/-! ### Basic lemmas about Python indexing -/

theorem pyIdx_eq_none (n : Nat) (i : Int)
    (h : i < -(n : Int) ∨ (n : Int) ≤ i) : pyIdx n i = none := by
  unfold pyIdx
  rw [if_neg (by omega), if_neg (by omega)]

theorem pyIdx_lt (n : Nat) (i : Int) (k : Nat) (h : pyIdx n i = some k) :
    k < n := by
  unfold pyIdx at h
  split_ifs at h with h1 h2
  · simp only [Option.some.injEq] at h
    omega
  · simp only [Option.some.injEq] at h
    omega

theorem pyIdx_nat (n k : Nat) (h : k < n) : pyIdx n (k : Int) = some k := by
  unfold pyIdx
  rw [if_pos (by constructor <;> omega)]
  simp

/-! ### C2: generate_mines never terminates when mineCount exceeds the
grid size -/

theorem genMinesAux_none_of_lt (rows cols M : Nat) (rnd : Nat → Nat × Nat)
    (hM : rows * cols < M) :
    ∀ fuel k acc, (∀ p ∈ acc, p.1 < rows ∧ p.2 < cols) →
      genMinesAux rows cols M rnd fuel k acc = none := by
  intro fuel
  induction fuel with
  | zero =>
    intro k acc hacc
    have hcard : acc.card ≤ rows * cols := by
      have hsub : acc ⊆ (Finset.range rows) ×ˢ (Finset.range cols) := by
        intro p hp
        rcases hacc p hp with ⟨h1, h2⟩
        simp only [Finset.mem_product, Finset.mem_range]
        exact ⟨h1, h2⟩
      calc acc.card ≤ ((Finset.range rows) ×ˢ (Finset.range cols)).card :=
            Finset.card_le_card hsub
        _ = rows * cols := by
            rw [Finset.card_product, Finset.card_range, Finset.card_range]
    simp only [genMinesAux, if_pos (by omega : acc.card < M)]
  | succ f ih =>
    intro k acc hacc
    have hcard : acc.card ≤ rows * cols := by
      have hsub : acc ⊆ (Finset.range rows) ×ˢ (Finset.range cols) := by
        intro p hp
        rcases hacc p hp with ⟨h1, h2⟩
        simp only [Finset.mem_product, Finset.mem_range]
        exact ⟨h1, h2⟩
      calc acc.card ≤ ((Finset.range rows) ×ˢ (Finset.range cols)).card :=
            Finset.card_le_card hsub
        _ = rows * cols := by
            rw [Finset.card_product, Finset.card_range, Finset.card_range]
    simp only [genMinesAux, if_pos (by omega : acc.card < M)]
    by_cases hz : rows = 0 ∨ cols = 0
    · simp [hz]
    · push_neg at hz
      simp only [if_neg (by tauto : ¬(rows = 0 ∨ cols = 0))]
      apply ih
      intro p hp
      rcases Finset.mem_insert.mp hp with h | h
      · subst h
        exact ⟨Nat.mod_lt _ (by omega), Nat.mod_lt _ (by omega)⟩
      · exact hacc p h

/-- C2 (amended): for mineCount ≥ rows*cols the code does not fail fast with
an InvalidConfiguration error.  For mineCount > rows*cols the generate_mines
loop can never exit (no fuel bound suffices, so the call never returns and
new_game never completes); the companion counterexample shows that for
mineCount = rows*cols initialisation instead terminates normally with no
error at all. -/
theorem c2_no_validation (rows cols M : Nat) (rnd : Nat → Nat × Nat)
    (fuel : Nat) (s : MSState) (hr : 0 < rows) (hc : 0 < cols)
    (hM : rows * cols < M) :
    generate_mines rows cols M rnd fuel = none ∧
    new_game rows cols M rnd fuel s = none := by
  have h := genMinesAux_none_of_lt rows cols M rnd hM fuel 0 ∅ (by simp)
  refine ⟨h, ?_⟩
  unfold new_game generate_mines
  unfold generate_mines at h
  rw [h, Option.map_none']

/-- C2 witness: at rows = cols = 1, mineCount = 2 the loop exhausts the fuel
bound 5 without terminating and new_game returns nothing. -/
theorem c2_witness :
    generate_mines 1 1 2 rnd00 5 = none ∧
    new_game 1 1 2 rnd00 5 initial_state = none :=
  c2_no_validation 1 1 2 rnd00 5 initial_state (by decide) (by decide)
    (by decide)

/-- C2 counterexample: with rows = cols = 1 and mineCount = 1 ≥ rows*cols the
claim demands a fast InvalidConfiguration failure, but initialisation
proceeds normally: the loop fills the whole grid with mines and new_game
returns a fully initialised state, reporting no error. -/
theorem c2_counterexample : init_game 1 1 1 rnd00 2 = some exC2 := by decide

/-! ### C1, C4, C8: the terminal flags are set but never consulted and never
reset -/

/-- C1: refuted on the code, which is a slip against its own intent: click
never consults the board_clickable / game_over_flag fields that game_over
sets.  In the reachable lost state `exA1` (2 by 2 grid, mine at (0, 0),
mine clicked) a further click on (1, 1) is accepted and flips that cell from
Hidden to Revealed. -/
theorem c1_click_after_loss_mutates :
    init_game 2 2 1 rnd00 2 = some exA0 ∧
    click 9 exA0 0 0 = some exA1 ∧
    statusOf exA1 = Status.lost ∧ exA1.game_over_flag = true ∧
    click 9 exA1 1 1 = some exA2 ∧
    revealedAt exA1 (1, 1) = some false ∧
    revealedAt exA2 (1, 1) = some true := by
  refine ⟨by decide, by decide, by decide, by decide, by decide,
    by decide, by decide⟩

/-- C4: the win test itself is the claimed equality (check_win fires exactly
when the hidden count equals num_mines), but the claim's "never after a Lost
transition" part is refuted: in the same lost game, revealing the remaining
safe cells drives the hidden count down to num_mines and check_win then
declares the game won. -/
theorem c4_won_after_lost :
    init_game 2 2 1 rnd00 2 = some exA0 ∧
    click 9 exA0 0 0 = some exA1 ∧ statusOf exA1 = Status.lost ∧
    click 9 exA1 0 1 = some exB2 ∧ statusOf exB2 = Status.lost ∧
    click 9 exB2 1 0 = some exB3 ∧
    hiddenCount exB3 = exB3.num_mines ∧
    statusOf exB3 = Status.won := by
  refine ⟨by decide, by decide, by decide, by decide, by decide,
    by decide, by decide, by decide⟩

/-- C8: partially refuted on the code.  new_game does rebuild the
dimensions, the mine set, the adjacency counts and an all-Hidden button
grid, but it never resets the status artefacts: after the lost game `exA1`
the new game still has game_over_flag set, board_clickable cleared, and the
Game Over dialog as its last status transition. -/
theorem c8_new_game_keeps_flags :
    statusOf exA1 = Status.lost ∧
    new_game 2 2 1 rnd00 2 exA1 = some exB ∧
    exB.buttons = List.replicate 2 (List.replicate 2 ⟨false, ""⟩) ∧
    exB.board = update_counts 2 2 {(0, 0)} ∧
    exB.mines = {(0, 0)} ∧
    exB.game_over_flag = true ∧
    exB.board_clickable = false ∧
    statusOf exB = Status.lost := by
  refine ⟨by decide, by decide, by decide, by decide, by decide,
    by decide, by decide, by decide⟩

/-! ### C3 and C9: what the code really does outside [0, R) x [0, C) -/

/-- The membership test of click fails for any coordinate pair that indexes
no cell of a well-formed state, in particular for every coordinate pair with
a negative component. -/
theorem minesContains_false_of_oob (s : MSState) (hWF : WF s) (row col : Int)
    (h : row < -(s.rows : Int) ∨ (s.rows : Int) ≤ row ∨
         col < -(s.cols : Int) ∨ (s.cols : Int) ≤ col) :
    minesContains s.mines row col = false := by
  unfold minesContains
  split_ifs with h1
  · simp only [decide_eq_false_iff_not]
    intro hmem
    rcases hWF.2 _ hmem with ⟨hr, hc⟩
    simp only at hr hc
    omega
  · rfl

/-- A click whose row is outside [-R, R) or whose column is outside [-C, C)
raises an uncaught IndexError on the first list access, before any state is
mutated: modelled as click returning none, for every fuel. -/
theorem click_oob_none (s : MSState) (hWF : WF s) (row col : Int)
    (h : row < -(s.rows : Int) ∨ (s.rows : Int) ≤ row ∨
         col < -(s.cols : Int) ∨ (s.cols : Int) ≤ col) (fuel : Nat) :
    click fuel s row col = none := by
  have hmc : minesContains s.mines row col = false :=
    minesContains_false_of_oob s hWF row col h
  have hbl : s.buttons.length = s.rows := hWF.1.1
  have hrev : revealF fuel s row col = none := by
    cases fuel with
    | zero => rfl
    | succ f =>
      unfold revealF
      rw [hbl]
      rcases h with h | h | h | h
      · rw [pyIdx_eq_none _ _ (Or.inl h), Option.none_bind]
      · rw [pyIdx_eq_none _ _ (Or.inr h), Option.none_bind]
      all_goals {
        cases hpi : pyIdx s.rows row with
        | none => rw [Option.none_bind]
        | some ri =>
          rw [Option.some_bind]
          cases hget : s.buttons.get? ri with
          | none => rw [Option.none_bind]
          | some brow =>
            rw [Option.some_bind]
            have hlen : brow.length = s.cols :=
              hWF.1.2.1 brow (List.get?_mem hget)
            rw [hlen]
            first
            | rw [pyIdx_eq_none _ _ (Or.inl h), Option.none_bind]
            | rw [pyIdx_eq_none _ _ (Or.inr h), Option.none_bind]
      }
  unfold click
  rw [hmc, hrev]
  simp

/-- C3 (amended): the code raises a plain IndexError, not a dedicated
OutOfBounds error, and only for coordinates outside [-R, R) x [-C, C): a
click whose row is outside [-R, R) or whose column is outside [-C, C) fails
on its first list access, before any cell is mutated.  Coordinates with a
negative component inside those ranges are instead accepted and wrap (the
companion counterexample). -/
theorem c3_oob_click_raises (s : MSState) (hWF : WF s) (row col : Int)
    (h : row < -(s.rows : Int) ∨ (s.rows : Int) ≤ row ∨
         col < -(s.cols : Int) ∨ (s.cols : Int) ≤ col) (fuel : Nat) :
    click fuel s row col = none :=
  click_oob_none s hWF row col h fuel

/-- C3 witness: clicking row 5 on the fresh 2 by 2 game raises. -/
theorem c3_witness : click 9 exA0 5 0 = none :=
  c3_oob_click_raises exA0 (by decide) 5 0 (by decide) 9

/-- C3 counterexample: (-1, -1) is outside [0, R) x [0, C), yet the claimed
OutOfBounds failure does not happen: the click is accepted, wraps to cell
(1, 1) and reveals it. -/
theorem c3_counterexample :
    init_game 2 2 1 rnd00 2 = some exA0 ∧
    click 9 exA0 (-1) (-1) = some exC3 ∧
    revealedAt exA0 (1, 1) = some false ∧
    revealedAt exC3 (1, 1) = some true := by
  refine ⟨by decide, by decide, by decide, by decide⟩

/-- C9 counterexample: the claim covers every click with a negative
coordinate in [-R, 0) or [-C, 0) and asserts no error is raised, but when
the other coordinate is out of range the call still raises: row -1 lies in
[-R, 0), yet column 2 makes the click fail on the fresh 2 by 2 game. -/
theorem c9_counterexample : click 9 exA0 (-1) 2 = none :=
  click_oob_none exA0 (by decide) (-1) 2 (by decide) 9

/-! ### C7 and C10: the losing click -/

theorem minesContains_natCast (mines : Finset (Nat × Nat)) (r c : Nat) :
    minesContains mines (r : Int) (c : Int) = decide ((r, c) ∈ mines) := by
  unfold minesContains
  rw [if_pos ⟨Int.natCast_nonneg r, Int.natCast_nonneg c⟩]
  simp

theorem mapIdxFrom_get? (f : Nat → α → α) :
    ∀ (l : List α) (i k : Nat),
      (mapIdxFrom f i l).get? k = (l.get? k).map (f (i + k)) := by
  intro l
  induction l with
  | nil => intro i k; simp [mapIdxFrom]
  | cons a l ih =>
    intro i k
    cases k with
    | zero => simp [mapIdxFrom]
    | succ k =>
      have he : i + 1 + k = i + (k + 1) := by omega
      simp only [mapIdxFrom, List.get?_cons_succ, ih (i + 1) k, he]

/-- The pointwise effect of game_over on the button grid. -/
theorem game_over_btnAt (s : MSState) (p : Nat × Nat) :
    btnAt? (game_over s) p =
      (btnAt? s p).map (fun btn => if p ∈ s.mines then ⟨true, "*"⟩ else btn) := by
  obtain ⟨r, c⟩ := p
  unfold game_over btnAt?
  simp only [mapIdxFrom_get?, Nat.zero_add]
  cases s.buttons.get? r with
  | none => rfl
  | some row =>
    simp only [Option.map_some', Option.some_bind, mapIdxFrom_get?,
      Nat.zero_add]

/-- The other fields game_over touches. -/
theorem game_over_fields (s : MSState) :
    (game_over s).board = s.board ∧ (game_over s).mines = s.mines ∧
    (game_over s).rows = s.rows ∧ (game_over s).cols = s.cols ∧
    (game_over s).num_mines = s.num_mines ∧
    (game_over s).messages = s.messages ++ [Msg.gameOver] ∧
    (game_over s).board_clickable = false ∧
    (game_over s).game_over_flag = true := by
  unfold game_over
  exact ⟨rfl, rfl, rfl, rfl, rfl, rfl, rfl, rfl⟩

theorem statusOf_game_over (s : MSState) :
    statusOf (game_over s) = Status.lost := by
  unfold statusOf
  rw [(game_over_fields s).2.2.2.2.2.1, List.getLast?_concat]

/-- Every position of a well-formed state's grid holds a button. -/
theorem btnAt_isSome_of_shape (s : MSState) (h : WFShape s) (p : Nat × Nat)
    (hp : inGrid s p) : ∃ btn, btnAt? s p = some btn := by
  obtain ⟨r, c⟩ := p
  have hr : r < s.buttons.length := by rw [h.1]; exact hp.1
  cases hrow : s.buttons.get? r with
  | none => exact absurd (List.get?_eq_none.mp hrow) (by omega)
  | some row =>
    have hlen : row.length = s.cols := h.2.1 row (List.get?_mem hrow)
    have hc : c < row.length := by rw [hlen]; exact hp.2
    cases hbtn : row.get? c with
    | none => exact absurd (List.get?_eq_none.mp hbtn) (by omega)
    | some btn =>
      exact ⟨btn, by unfold btnAt?; rw [hrow, Option.some_bind, hbtn]⟩

/-- C7: confirmed.  An in-bounds click on a mine cell while the game is in
progress runs game_over: the status transitions to Lost, and every mine
cell is revealed (tk.DISABLED) and labelled with the mine marker "*" for
the outbound display. -/
theorem c7_losing_click (s : MSState) (fuel : Nat) (r c : Nat) (hWF : WF s)
    (hg : inGrid s (r, c)) (hm : (r, c) ∈ s.mines)
    (hst : statusOf s = Status.inProgress) :
    click fuel s r c = some (game_over s) ∧
    statusOf (game_over s) = Status.lost ∧
    ∀ p ∈ s.mines, revealedAt (game_over s) p = some true ∧
      textAt? (game_over s) p = some "*" := by
  refine ⟨by simp [click, minesContains_natCast, hm], statusOf_game_over s, ?_⟩
  intro p hp
  have hpg : inGrid s p := by
    rcases hWF.2 p hp with ⟨h1, h2⟩
    exact ⟨h1, h2⟩
  obtain ⟨btn, hbtn⟩ := btnAt_isSome_of_shape s hWF.1 p hpg
  have hgo := game_over_btnAt s p
  rw [hbtn] at hgo
  simp only [Option.map_some', if_pos hp] at hgo
  unfold revealedAt textAt?
  rw [hgo]
  exact ⟨rfl, rfl⟩

/-- C7 witness: the losing click on the fresh 2 by 2 game. -/
theorem c7_witness :
    click 0 exA0 ((0 : Nat) : Int) ((0 : Nat) : Int) = some (game_over exA0) ∧
    statusOf (game_over exA0) = Status.lost ∧
    ∀ p ∈ exA0.mines, revealedAt (game_over exA0) p = some true ∧
      textAt? (game_over exA0) p = some "*" :=
  c7_losing_click exA0 0 0 0 (by decide) (by decide) (by decide) (by decide)

/-- C10: confirmed.  A losing click changes no non-mine cell: clicking an
in-bounds mine leaves every non-mine button (its state and its text) and
the whole count board exactly as they were. -/
theorem c10_losing_click_frame (s : MSState) (fuel : Nat) (r c : Nat)
    (hg : inGrid s (r, c)) (hm : (r, c) ∈ s.mines) :
    click fuel s r c = some (game_over s) ∧
    (∀ p, p ∉ s.mines → btnAt? (game_over s) p = btnAt? s p) ∧
    (game_over s).board = s.board := by
  refine ⟨by simp [click, minesContains_natCast, hm], ?_,
    (game_over_fields s).1⟩
  intro p hp
  simp [game_over_btnAt, hp]

/-- C10 witness: the same losing click, concretely. -/
theorem c10_witness :
    click 0 exA0 ((0 : Nat) : Int) ((0 : Nat) : Int) = some (game_over exA0) ∧
    (∀ p, p ∉ exA0.mines → btnAt? (game_over exA0) p = btnAt? exA0 p) ∧
    (game_over exA0).board = exA0.board :=
  c10_losing_click_frame exA0 0 0 0 (by decide) (by decide)

/-! ### C5: mine placement and adjacency counts after initialisation -/

theorem genMinesAux_some (rows cols M : Nat) (rnd : Nat → Nat × Nat) :
    ∀ fuel k acc mines, acc.card ≤ M →
      (∀ p ∈ acc, p.1 < rows ∧ p.2 < cols) →
      genMinesAux rows cols M rnd fuel k acc = some mines →
      mines.card = M ∧ ∀ p ∈ mines, p.1 < rows ∧ p.2 < cols := by
  intro fuel
  induction fuel with
  | zero =>
    intro k acc mines hcard hacc h
    simp only [genMinesAux] at h
    split_ifs at h with hlt
    simp only [Option.some.injEq] at h
    subst h
    exact ⟨by omega, hacc⟩
  | succ f ih =>
    intro k acc mines hcard hacc h
    simp only [genMinesAux] at h
    split_ifs at h with hlt hz
    · refine ih (k + 1) _ mines ?_ ?_ h
      · calc (insert ((rnd k).1 % rows, (rnd k).2 % cols) acc).card
            ≤ acc.card + 1 := Finset.card_insert_le _ _
          _ ≤ M := by omega
      · intro p hp
        rcases Finset.mem_insert.mp hp with he | hmem
        · subst he
          rcases not_or.mp hz with ⟨h1, h2⟩
          exact ⟨Nat.mod_lt _ (by omega), Nat.mod_lt _ (by omega)⟩
        · exact hacc p hmem
    · simp only [Option.some.injEq] at h
      subst h
      exact ⟨by omega, hacc⟩

theorem minesContains_eq_true (t : Finset (Nat × Nat)) (x y : Int) :
    minesContains t x y = true ↔
      0 ≤ x ∧ 0 ≤ y ∧ (x.toNat, y.toNat) ∈ t := by
  unfold minesContains
  split_ifs with h
  · simp [h.1, h.2]
  · simp only [Bool.false_eq_true, false_iff]
    exact fun hc => h ⟨hc.1, hc.2.1⟩

theorem minesContains_insert (a : Nat × Nat) (t : Finset (Nat × Nat))
    (x y : Int) :
    minesContains (insert a t) x y =
      (minesContains t x y ||
        decide (0 ≤ x ∧ 0 ≤ y ∧ (x.toNat, y.toNat) = a)) := by
  unfold minesContains
  split_ifs with h
  · simp only [Finset.mem_insert, h.1, h.2, true_and]
    by_cases h1 : (x.toNat, y.toNat) = a <;>
      by_cases h2 : (x.toNat, y.toNat) ∈ t <;> simp [h1, h2]
  · have hd : ¬(0 ≤ x ∧ 0 ≤ y ∧ (x.toNat, y.toNat) = a) :=
      fun hc => h ⟨hc.1, hc.2.1⟩
    simp [hd]

theorem sum_map_ite_or (l : List (Int × Int)) (f g : Int × Int → Bool)
    (hdisj : ∀ o ∈ l, ¬(f o = true ∧ g o = true)) :
    (l.map (fun o => if f o || g o then (1 : Nat) else 0)).sum =
      (l.map (fun o => if f o then (1 : Nat) else 0)).sum +
      (l.map (fun o => if g o then (1 : Nat) else 0)).sum := by
  induction l with
  | nil => rfl
  | cons a l ih =>
    simp only [List.map_cons, List.sum_cons,
      ih (fun o ho => hdisj o (List.mem_cons_of_mem a ho))]
    have hna := hdisj a (List.mem_cons_self a l)
    cases hf : f a <;> cases hg : g a <;> simp_all <;> omega

/-- Summing the indicator of one fixed value over a duplicate-free list
counts whether the value occurs. -/
theorem sum_map_ite_eq (l : List (Int × Int)) (v : Int × Int)
    (hnd : l.Nodup) :
    (l.map (fun o => if o = v then (1 : Nat) else 0)).sum =
      if v ∈ l then 1 else 0 := by
  induction l with
  | nil => simp
  | cons a l ih =>
    rw [List.nodup_cons] at hnd
    rcases hnd with ⟨hna, hnd⟩
    simp only [List.map_cons, List.sum_cons, ih hnd]
    by_cases hv : a = v
    · subst hv
      simp [hna]
    · simp [hv, Ne.symm hv, List.mem_cons]

/-- The nine offset indicators for hitting one fixed cell `a` distinct from
(r, c) sum to exactly the 8-neighbour indicator. -/
theorem hit_sum (r c : Nat) (a : Nat × Nat) (hne : a ≠ (r, c)) :
    (offsets9.map (fun o =>
      if decide (0 ≤ (r : Int) + o.1 ∧ 0 ≤ (c : Int) + o.2 ∧
          (((r : Int) + o.1).toNat, ((c : Int) + o.2).toNat) = a) = true
      then (1 : Nat) else 0)).sum =
      if adj8 (r, c) a then 1 else 0 := by
  obtain ⟨a1, a2⟩ := a
  have hne' : ¬(a1 = r ∧ a2 = c) := by
    intro hc
    exact hne (by simp [hc.1, hc.2])
  have hterm : ∀ o ∈ offsets9,
      (if decide (0 ≤ (r : Int) + o.1 ∧ 0 ≤ (c : Int) + o.2 ∧
          (((r : Int) + o.1).toNat, ((c : Int) + o.2).toNat) = (a1, a2)) = true
       then (1 : Nat) else 0) =
      if o = ((a1 : Int) - r, (a2 : Int) - c) then 1 else 0 := by
    intro o _
    rcases o with ⟨o1, o2⟩
    by_cases h : ((o1, o2) : Int × Int) = ((a1 : Int) - r, (a2 : Int) - c)
    · rw [if_pos h, if_pos]
      rw [decide_eq_true_eq]
      rw [Prod.mk.injEq] at h
      refine ⟨by omega, by omega, ?_⟩
      rw [Prod.mk.injEq]
      constructor <;> omega
    · rw [if_neg h, if_neg]
      rw [decide_eq_true_eq]
      intro hc
      apply h
      rcases hc with ⟨hx, hy, hpair⟩
      rw [Prod.mk.injEq] at hpair ⊢
      constructor <;> omega
  rw [List.map_congr_left hterm,
    sum_map_ite_eq offsets9 _ (by decide)]
  have hmem_iff : (((a1 : Int) - r, (a2 : Int) - c) ∈ offsets9) ↔
      adj8 (r, c) (a1, a2) := by
    simp only [offsets9, List.mem_cons, List.not_mem_nil, or_false,
      Prod.mk.injEq, adj8, ne_eq, Prod.mk.injEq, not_and]
    omega
  simp only [hmem_iff]

theorem neighbor_count_eq_filter (r c : Nat) :
    ∀ mines : Finset (Nat × Nat), (r, c) ∉ mines →
      neighbor_count mines r c =
        (mines.filter (fun q => adj8 (r, c) q)).card := by
  intro mines
  induction mines using Finset.induction_on with
  | empty =>
    intro _
    simp [neighbor_count, minesContains, offsets9]
  | @insert a t ha ih =>
    intro hnotin
    have hne : a ≠ (r, c) := fun he => hnotin (he ▸ Finset.mem_insert_self a t)
    have hrc : (r, c) ∉ t := fun hm => hnotin (Finset.mem_insert_of_mem hm)
    have hdisj : ∀ o ∈ offsets9,
        ¬(minesContains t ((r : Int) + o.1) ((c : Int) + o.2) = true ∧
          decide (0 ≤ (r : Int) + o.1 ∧ 0 ≤ (c : Int) + o.2 ∧
            (((r : Int) + o.1).toNat, ((c : Int) + o.2).toNat) = a) = true) := by
      intro o _ ⟨hf, hg⟩
      rw [minesContains_eq_true] at hf
      rw [decide_eq_true_eq] at hg
      exact ha (hg.2.2 ▸ hf.2.2)
    unfold neighbor_count
    simp only [minesContains_insert]
    rw [sum_map_ite_or offsets9 _ _ hdisj]
    have hnc : (offsets9.map (fun o =>
        if minesContains t ((r : Int) + o.1) ((c : Int) + o.2) then (1 : Nat)
        else 0)).sum = neighbor_count t r c := rfl
    rw [hnc, ih hrc, hit_sum r c a hne, Finset.filter_insert]
    split_ifs with hadj
    · rw [Finset.card_insert_of_not_mem
        (fun hmem => ha (Finset.mem_of_mem_filter a hmem))]
    · omega

/-- The stored adjacency count of a non-mine cell is surrounded by at most
eight candidate cells, so any tally over them is at most 8. -/
theorem card_adj8_filter_le (r c : Nat) (t : Finset (Nat × Nat))
    (P : Nat × Nat → Prop) [DecidablePred P] :
    (t.filter (fun q => adj8 (r, c) q ∧ P q)).card ≤ 8 := by
  have hsub : t.filter (fun q => adj8 (r, c) q ∧ P q) ⊆
      ((Finset.Icc (r - 1) (r + 1)) ×ˢ (Finset.Icc (c - 1) (c + 1))).erase
        (r, c) := by
    intro q hq
    obtain ⟨⟨hne, h1, h2, h3, h4⟩, _⟩ := (Finset.mem_filter.mp hq).2
    rw [Finset.mem_erase]
    refine ⟨fun he => hne he.symm, Finset.mem_product.mpr ⟨?_, ?_⟩⟩
    · rw [Finset.mem_Icc]; omega
    · rw [Finset.mem_Icc]; omega
  have hcard := Finset.card_le_card hsub
  have hmem : (r, c) ∈
      (Finset.Icc (r - 1) (r + 1)) ×ˢ (Finset.Icc (c - 1) (c + 1)) := by
    rw [Finset.mem_product]
    constructor <;> (rw [Finset.mem_Icc]; omega)
  rw [Finset.card_erase_of_mem hmem, Finset.card_product, Nat.card_Icc,
    Nat.card_Icc] at hcard
  have h1 : r + 1 + 1 - (r - 1) ≤ 3 := by omega
  have h2 : c + 1 + 1 - (c - 1) ≤ 3 := by omega
  have hb := Nat.mul_le_mul h1 h2
  omega

theorem update_counts_get (rows cols : Nat) (mines : Finset (Nat × Nat))
    (r c : Nat) (hr : r < rows) (hc : c < cols) :
    ((update_counts rows cols mines).get? r).bind (fun row => row.get? c) =
      some (if (r, c) ∈ mines then 0 else neighbor_count mines r c) := by
  unfold update_counts
  rw [List.get?_map, List.get?_range hr]
  simp only [Option.map_some', Option.some_bind]
  rw [List.get?_map, List.get?_range hc]
  simp

/-- C5: confirmed.  After a successful initialisation with valid settings,
the mine set has exactly mineCount elements, all on the grid, and every
non-mine cell's stored count equals the number of mine cells among its
in-bounds 8-neighbours, a number between 0 and 8. -/
theorem c5_initialize_counts (rows cols M : Nat) (rnd : Nat → Nat × Nat)
    (fuel : Nat) (s t : MSState) (hr : 0 < rows) (hc : 0 < cols)
    (hM : M < rows * cols) (h : new_game rows cols M rnd fuel s = some t) :
    t.mines.card = M ∧ (∀ p ∈ t.mines, p.1 < rows ∧ p.2 < cols) ∧
    ∀ r c, r < rows → c < cols → (r, c) ∉ t.mines →
      boardAt? t (r, c) = some (trueTally rows cols t.mines r c) ∧
      trueTally rows cols t.mines r c ≤ 8 := by
  unfold new_game at h
  cases hg : generate_mines rows cols M rnd fuel with
  | none => rw [hg] at h; exact absurd h (by simp)
  | some mines =>
    rw [hg] at h
    simp only [Option.map_some', Option.some.injEq] at h
    subst h
    obtain ⟨hcard, hgrid⟩ :=
      genMinesAux_some rows cols M rnd fuel 0 ∅ mines (by simp) (by simp) hg
    refine ⟨hcard, hgrid, ?_⟩
    intro r c hrr hcc hnm
    have htt : trueTally rows cols mines r c =
        (mines.filter (fun q => adj8 (r, c) q)).card := by
      unfold trueTally
      congr 1
      apply Finset.filter_congr
      intro q hq
      rcases hgrid q hq with ⟨h1, h2⟩
      simp [h1, h2]
    constructor
    · unfold boardAt?
      simp only
      rw [update_counts_get rows cols mines r c hrr hcc, if_neg hnm, htt,
        neighbor_count_eq_filter r c mines hnm]
    · rw [trueTally]
      exact card_adj8_filter_le r c mines _

/-- C5 witness: the fresh 2 by 2 game with one mine. -/
theorem c5_witness :
    exA0.mines.card = 1 ∧ (∀ p ∈ exA0.mines, p.1 < 2 ∧ p.2 < 2) ∧
    ∀ r c, r < 2 → c < 2 → (r, c) ∉ exA0.mines →
      boardAt? exA0 (r, c) = some (trueTally 2 2 exA0.mines r c) ∧
      trueTally 2 2 exA0.mines r c ≤ 8 :=
  c5_initialize_counts 2 2 1 rnd00 2 initial_state exA0 (by decide)
    (by decide) (by decide) (by decide)

/-! ### The flood-fill machinery for C6 and C9 -/

/-- Everything that holds between the state a reveal call starts from and
the state it returns: reveal touches only the button grid, only ever turns
buttons from enabled to disabled, and never grows the hidden count. -/
structure RevealRel (s t : MSState) : Prop where
  rows_eq : t.rows = s.rows
  cols_eq : t.cols = s.cols
  board_eq : t.board = s.board
  mines_eq : t.mines = s.mines
  nm_eq : t.num_mines = s.num_mines
  bc_eq : t.board_clickable = s.board_clickable
  gof_eq : t.game_over_flag = s.game_over_flag
  msgs_eq : t.messages = s.messages
  len_eq : t.buttons.length = s.buttons.length
  row_len : ∀ i, (t.buttons.get? i).map List.length =
    (s.buttons.get? i).map List.length
  mono : ∀ p, revealedAt s p = some true → revealedAt t p = some true
  delta : ∀ p, revealedAt t p = revealedAt s p ∨
    (revealedAt s p = some false ∧ revealedAt t p = some true)
  hid_le : hiddenCount t ≤ hiddenCount s

theorem revealRel_refl (s : MSState) : RevealRel s s :=
  ⟨rfl, rfl, rfl, rfl, rfl, rfl, rfl, rfl, rfl, fun _ => rfl, fun _ h => h,
    fun _ => Or.inl rfl, le_refl _⟩

theorem RevealRel.comp {s t u : MSState} (h1 : RevealRel s t)
    (h2 : RevealRel t u) : RevealRel s u := by
  refine ⟨h2.rows_eq.trans h1.rows_eq, h2.cols_eq.trans h1.cols_eq,
    h2.board_eq.trans h1.board_eq, h2.mines_eq.trans h1.mines_eq,
    h2.nm_eq.trans h1.nm_eq, h2.bc_eq.trans h1.bc_eq,
    h2.gof_eq.trans h1.gof_eq, h2.msgs_eq.trans h1.msgs_eq,
    h2.len_eq.trans h1.len_eq,
    fun i => (h2.row_len i).trans (h1.row_len i),
    fun p hp => h2.mono p (h1.mono p hp), ?_,
    le_trans h2.hid_le h1.hid_le⟩
  intro p
  rcases h2.delta p with he | ⟨hf, ht⟩
  · rcases h1.delta p with he' | ⟨hf', ht'⟩
    · exact Or.inl (he.trans he')
    · exact Or.inr ⟨hf', he ▸ ht'⟩
  · rcases h1.delta p with he' | ⟨hf', ht'⟩
    · exact Or.inr ⟨he' ▸ hf, ht⟩
    · exact Or.inr ⟨hf', ht⟩

theorem WFShape.of_rel {s t : MSState} (hrel : RevealRel s t)
    (hsh : WFShape s) : WFShape t := by
  refine ⟨hrel.len_eq.trans (hrel.rows_eq ▸ hsh.1), ?_,
    hrel.board_eq ▸ hrel.rows_eq ▸ hsh.2.2.1,
    fun row hm => hrel.cols_eq ▸ hsh.2.2.2 row (hrel.board_eq ▸ hm)⟩
  intro row hm
  obtain ⟨i, hi⟩ := List.mem_iff_get?.mp hm
  have := hrel.row_len i
  rw [hi] at this
  cases hg : s.buttons.get? i with
  | none => rw [hg] at this; exact absurd this (by simp)
  | some row' =>
    rw [hg] at this
    simp only [Option.map_some', Option.some.injEq] at this
    rw [hrel.cols_eq, this]
    exact hsh.2.1 row' (List.get?_mem hg)

theorem get?_exists {α : Type} {l : List α} {k : Nat} (h : k < l.length) :
    ∃ a, l.get? k = some a := by
  cases hg : l.get? k with
  | none => exact absurd (List.get?_eq_none.mp hg) (by omega)
  | some a => exact ⟨a, rfl⟩

theorem pyIdx_isSome (n : Nat) (i : Int) (h1 : -(n : Int) ≤ i)
    (h2 : i < n) : ∃ k, pyIdx n i = some k ∧ k < n := by
  unfold pyIdx
  split_ifs with ha hb
  · exact ⟨i.toNat, Option.some.injEq _ _ ▸ rfl, by omega⟩
  · exact ⟨(i + n).toNat, rfl, by omega⟩
  · omega

/-- Replacing one list element changes a mapped sum by exactly the swap of
the two images. -/
theorem sum_map_set {α : Type} (f : α → Nat) :
    ∀ (l : List α) (i : Nat) (a b : α), l.get? i = some a →
      ((l.set i b).map f).sum + f a = (l.map f).sum + f b := by
  intro l
  induction l with
  | nil => intro i a b h; simp at h
  | cons x l ih =>
    intro i a b h
    cases i with
    | zero =>
      simp only [List.get?] at h
      cases h
      simp only [List.set, List.map_cons, List.sum_cons]
      omega
    | succ i =>
      simp only [List.get?] at h
      have := ih i a b h
      simp only [List.set, List.map_cons, List.sum_cons]
      omega

/-- The pointwise effect of replacing one button. -/
theorem btnAt_set (s : MSState) (ri ci : Nat) (brow : List MSButton)
    (btn' : MSButton) (hbrow : s.buttons.get? ri = some brow)
    (hci : ci < brow.length) (p : Nat × Nat) :
    btnAt? { s with buttons := s.buttons.set ri (brow.set ci btn') } p =
      if p = (ri, ci) then some btn' else btnAt? s p := by
  obtain ⟨p1, p2⟩ := p
  have hri : ri < s.buttons.length := (List.get?_eq_some.mp hbrow).1
  unfold btnAt?
  simp only
  by_cases h1 : p1 = ri
  · subst h1
    rw [List.get?_set_eq_of_lt _ hri, Option.some_bind]
    by_cases h2 : p2 = ci
    · subst h2
      rw [List.get?_set_eq_of_lt _ hci, if_pos rfl]
    · rw [List.get?_set_ne _ _ (show ci ≠ p2 from fun he => h2 he.symm),
        if_neg (by simp [h2]), hbrow, Option.some_bind]
  · rw [List.get?_set_ne _ _ (show ri ≠ p1 from fun he => h1 he.symm),
      if_neg (by simp [h1])]

/-- Disabling one hidden button lowers the hidden count by exactly one. -/
theorem hiddenCount_set (s : MSState) (ri ci : Nat) (brow : List MSButton)
    (btn btn' : MSButton) (hbrow : s.buttons.get? ri = some brow)
    (hbtn : brow.get? ci = some btn) (hd : btn.disabled = false)
    (hd' : btn'.disabled = true) :
    hiddenCount { s with buttons := s.buttons.set ri (brow.set ci btn') } + 1
      = hiddenCount s := by
  unfold hiddenCount
  simp only
  have houter := sum_map_set
    (fun row => (row.map fun b => if b.disabled then 0 else 1).sum)
    s.buttons ri brow (brow.set ci btn') hbrow
  have hinner := sum_map_set (fun b => if b.disabled then 0 else 1)
    brow ci btn btn' hbtn
  simp only [hd, hd', Bool.false_eq_true, if_false, if_true] at hinner
  simp only at houter
  omega

/-- Unfolding one successful reveal step of a well-formed state. -/
theorem revealF_succ_unfold (fuel : Nat) (s : MSState) (row col : Int)
    (ri ci : Nat) (brow : List MSButton) (btn : MSButton)
    (bdrow : List Nat) (count : Nat) (hsh : WFShape s)
    (hri : pyIdx s.rows row = some ri)
    (hbrow : s.buttons.get? ri = some brow)
    (hci : pyIdx s.cols col = some ci)
    (hbtn : brow.get? ci = some btn)
    (hbdrow : s.board.get? ri = some bdrow)
    (hcount : bdrow.get? ci = some count) :
    revealF (fuel + 1) s row col =
      if btn.disabled then some s
      else if 0 < count then
        some { s with
          buttons := s.buttons.set ri (brow.set ci ⟨true, toString count⟩) }
      else
        List.foldlM (floodStep fuel s.rows s.cols row col)
          { s with
            buttons := s.buttons.set ri (brow.set ci ⟨true, btn.text⟩) }
          offsets9 := by
  rw [revealF]
  rw [hsh.1, hri, Option.some_bind, hbrow, Option.some_bind,
    hsh.2.1 brow (List.get?_mem hbrow), hci, Option.some_bind, hbtn,
    Option.some_bind]
  by_cases hd : btn.disabled
  · rw [if_pos hd, if_pos hd]
  · rw [if_neg hd, if_neg hd, hsh.2.2.1, hri, Option.some_bind, hbdrow,
      Option.some_bind, hsh.2.2.2 bdrow (List.get?_mem hbdrow), hci,
      Option.some_bind, hcount, Option.some_bind]
    by_cases hcnt : 0 < count
    · simp only [if_pos hcnt]
    · simp only [if_neg hcnt]
      rfl

/-- Replacing one enabled button by a disabled one is a reveal step. -/
theorem set_step_rel (s : MSState) (ri ci : Nat) (brow : List MSButton)
    (btn btn' : MSButton) (hbrow : s.buttons.get? ri = some brow)
    (hbtn : brow.get? ci = some btn) (hd : btn.disabled = false)
    (hd' : btn'.disabled = true) :
    RevealRel s { s with buttons := s.buttons.set ri (brow.set ci btn') } := by
  have hci : ci < brow.length := (List.get?_eq_some.mp hbtn).1
  have hri : ri < s.buttons.length := (List.get?_eq_some.mp hbrow).1
  have hset := btnAt_set s ri ci brow btn' hbrow hci
  have hrevAt : revealedAt s (ri, ci) = some false := by
    unfold revealedAt btnAt?
    rw [hbrow, Option.some_bind, hbtn, Option.map_some', hd]
  refine ⟨rfl, rfl, rfl, rfl, rfl, rfl, rfl, rfl, by simp, ?_, ?_, ?_, ?_⟩
  · intro i
    simp only
    by_cases hi : i = ri
    · subst hi
      rw [List.get?_set_eq_of_lt _ hri, hbrow]
      simp
    · rw [List.get?_set_ne _ _ (show ri ≠ i from fun he => hi he.symm)]
  · intro p hp
    rw [show revealedAt { s with
        buttons := s.buttons.set ri (brow.set ci btn') } p =
        if p = (ri, ci) then some btn'.disabled else revealedAt s p by
      unfold revealedAt
      rw [hset p]
      by_cases hpe : p = (ri, ci)
      · rw [if_pos hpe, if_pos hpe, Option.map_some']
      · rw [if_neg hpe, if_neg hpe]]
    by_cases hpe : p = (ri, ci)
    · rw [if_pos hpe, hd']
    · rw [if_neg hpe]
      exact hp
  · intro p
    rw [show revealedAt { s with
        buttons := s.buttons.set ri (brow.set ci btn') } p =
        if p = (ri, ci) then some btn'.disabled else revealedAt s p by
      unfold revealedAt
      rw [hset p]
      by_cases hpe : p = (ri, ci)
      · rw [if_pos hpe, if_pos hpe, Option.map_some']
      · rw [if_neg hpe, if_neg hpe]]
    by_cases hpe : p = (ri, ci)
    · rw [if_pos hpe, hd', hpe]
      exact Or.inr ⟨hrevAt, rfl⟩
    · rw [if_neg hpe]
      exact Or.inl rfl
  · have := hiddenCount_set s ri ci brow btn btn' hbrow hbtn hd hd'
    omega

/-- Case analysis of one successful reveal call on an arbitrary state. -/
theorem revealF_cases (f : Nat) (s : MSState) (row col : Int) (t : MSState)
    (h : revealF (f + 1) s row col = some t) :
    ∃ ri ci brow btn,
      pyIdx s.buttons.length row = some ri ∧
      s.buttons.get? ri = some brow ∧
      pyIdx brow.length col = some ci ∧
      brow.get? ci = some btn ∧
      ((btn.disabled = true ∧ t = s) ∨
        (btn.disabled = false ∧ ∃ count : Nat, ∃ btn' : MSButton,
          btn'.disabled = true ∧
          ((0 < count ∧
              t = { s with buttons := s.buttons.set ri (brow.set ci btn') }) ∨
            (count = 0 ∧
              List.foldlM (floodStep f s.rows s.cols row col)
                { s with buttons := s.buttons.set ri (brow.set ci btn') }
                offsets9 = some t)))) := by
  rw [revealF] at h
  rw [Option.bind_eq_some] at h
  obtain ⟨ri, h1, h⟩ := h
  rw [Option.bind_eq_some] at h
  obtain ⟨brow, h2, h⟩ := h
  rw [Option.bind_eq_some] at h
  obtain ⟨ci, h3, h⟩ := h
  rw [Option.bind_eq_some] at h
  obtain ⟨btn, h4, h⟩ := h
  refine ⟨ri, ci, brow, btn, h1, h2, h3, h4, ?_⟩
  by_cases hd : btn.disabled
  · rw [if_pos hd] at h
    exact Or.inl ⟨hd, (Option.some.injEq _ _ ▸ h).symm⟩
  · rw [if_neg hd] at h
    rw [Option.bind_eq_some] at h
    obtain ⟨bi, h5, h⟩ := h
    rw [Option.bind_eq_some] at h
    obtain ⟨bdrow, h6, h⟩ := h
    rw [Option.bind_eq_some] at h
    obtain ⟨cj, h7, h⟩ := h
    rw [Option.bind_eq_some] at h
    obtain ⟨count, h8, h⟩ := h
    refine Or.inr ⟨Bool.eq_false_iff.mpr hd, count, ?_⟩
    by_cases hcnt : 0 < count
    · simp only [if_pos hcnt] at h
      exact ⟨⟨true, toString count⟩, rfl,
        Or.inl ⟨hcnt, (Option.some.injEq _ _ ▸ h).symm⟩⟩
    · simp only [if_neg hcnt] at h
      exact ⟨⟨true, btn.text⟩, rfl, Or.inr ⟨by omega, h⟩⟩

/-- Chaining a transitive property through a successful foldlM while
carrying a step invariant. -/
theorem foldlM_chain {α : Type} (f : MSState → α → Option MSState)
    (Q : MSState → Prop) (P : MSState → MSState → Prop)
    (hrefl : ∀ x, P x x)
    (htrans : ∀ x y z, P x y → P y z → P x z) :
    ∀ (l : List α),
      (∀ x o y, o ∈ l → Q x → f x o = some y → P x y ∧ Q y) →
      ∀ x t, Q x → List.foldlM f x l = some t → P x t := by
  intro l
  induction l with
  | nil =>
    intro _ x t _ h
    simp only [List.foldlM_nil] at h
    cases h
    exact hrefl x
  | cons a l ih =>
    intro hstep x t hQ h
    rw [List.foldlM_cons] at h
    cases hfa : f x a with
    | none => rw [hfa] at h; exact absurd h (by simp)
    | some y =>
      rw [hfa] at h
      obtain ⟨hP, hQy⟩ := hstep x a y (List.mem_cons_self a l) hQ hfa
      exact htrans x y t hP
        (ih (fun x o y ho => hstep x o y (List.mem_cons_of_mem a ho)) y t hQy
          (by simpa using h))

/-- A successful foldlM whose steps always succeed from the invariant. -/
theorem foldlM_total {α : Type} (f : MSState → α → Option MSState)
    (Q : MSState → Prop) :
    ∀ (l : List α),
      (∀ x o, o ∈ l → Q x → ∃ y, f x o = some y ∧ Q y) →
      ∀ x, Q x → ∃ t, List.foldlM f x l = some t ∧ Q t := by
  intro l
  induction l with
  | nil =>
    intro _ x hQ
    exact ⟨x, by simp, hQ⟩
  | cons a l ih =>
    intro hstep x hQ
    obtain ⟨y, hfa, hQy⟩ := hstep x a (List.mem_cons_self a l) hQ
    obtain ⟨t, hfold, hQt⟩ :=
      ih (fun x o ho => hstep x o (List.mem_cons_of_mem a ho)) y hQy
    refine ⟨t, ?_, hQt⟩
    rw [List.foldlM_cons, hfa]
    simpa using hfold

/-- A property is preserved by every step of a successful foldlM. -/
theorem foldlM_pres {α : Type} (f : MSState → α → Option MSState)
    (G : MSState → Prop) :
    ∀ (l : List α),
      (∀ x o y, o ∈ l → f x o = some y → G x → G y) →
      ∀ x t, G x → List.foldlM f x l = some t → G t := by
  intro l
  induction l with
  | nil =>
    intro _ x t hG h
    simp only [List.foldlM_nil] at h
    cases h
    exact hG
  | cons a l ih =>
    intro hpres x t hG h
    rw [List.foldlM_cons] at h
    cases hfa : f x a with
    | none => rw [hfa] at h; exact absurd h (by simp)
    | some y =>
      rw [hfa] at h
      exact ih (fun x o y ho => hpres x o y (List.mem_cons_of_mem a ho)) y t
        (hpres x a y (List.mem_cons_self a l) hfa hG) (by simpa using h)

/-- The property established at a chosen step of a successful foldlM and
preserved afterwards holds of the result. -/
theorem foldlM_post {α : Type} (f : MSState → α → Option MSState)
    (Q : MSState → Prop) (G : MSState → Prop) (o₀ : α) :
    ∀ (l : List α), o₀ ∈ l →
      (∀ x o y, o ∈ l → Q x → f x o = some y → Q y) →
      (∀ x o y, o ∈ l → f x o = some y → G x → G y) →
      (∀ x y, Q x → f x o₀ = some y → G y) →
      ∀ x t, Q x → List.foldlM f x l = some t → G t := by
  intro l
  induction l with
  | nil => intro ho; exact absurd ho (List.not_mem_nil o₀)
  | cons a l ih =>
    intro ho hQ hpres hpost x t hQx h
    rw [List.foldlM_cons] at h
    cases hfa : f x a with
    | none => rw [hfa] at h; exact absurd h (by simp)
    | some y =>
      rw [hfa] at h
      have hQy := hQ x a y (List.mem_cons_self a l) hQx hfa
      rcases List.mem_cons.mp ho with he | ho'
      · subst he
        have hGy := hpost x y hQx hfa
        exact foldlM_pres f G l
          (fun x o y hm => hpres x o y (List.mem_cons_of_mem o₀ hm)) y t hGy
          (by simpa using h)
      · exact ih ho' (fun x o y hm => hQ x o y (List.mem_cons_of_mem a hm))
          (fun x o y hm => hpres x o y (List.mem_cons_of_mem a hm)) hpost y t
          hQy (by simpa using h)

/-- Any successful reveal call relates its start and end states. -/
theorem revealF_rel :
    ∀ (fuel : Nat) (s : MSState) (row col : Int) (t : MSState),
      revealF fuel s row col = some t → RevealRel s t := by
  intro fuel
  induction fuel with
  | zero =>
    intro s row col t h
    exact absurd h (by rw [revealF]; simp)
  | succ f ih =>
    intro s row col t h
    obtain ⟨ri, ci, brow, btn, h1, h2, h3, h4, hcase⟩ :=
      revealF_cases f s row col t h
    rcases hcase with ⟨_, ht⟩ | ⟨hd, count, btn', hd', hcase⟩
    · rw [ht]
      exact revealRel_refl s
    · have hrel1 := set_step_rel s ri ci brow btn btn' h2 h4 hd hd'
      rcases hcase with ⟨_, ht⟩ | ⟨_, hfold⟩
      · rw [ht]
        exact hrel1
      · refine RevealRel.comp hrel1 ?_
        refine foldlM_chain _ (fun _ => True) RevealRel revealRel_refl
          (fun x y z => RevealRel.comp) offsets9 ?_ _ t trivial hfold
        intro x o y _ _ hf
        unfold floodStep at hf
        split_ifs at hf with hg
        · exact ⟨ih x _ _ y hf, trivial⟩
        · cases hf
          exact ⟨revealRel_refl x, trivial⟩

/-- With enough fuel, reveal returns on every well-formed state whose
coordinates lie in Python's indexable range: one unit of fuel per cell that
can still flip from hidden to revealed suffices. -/
theorem revealF_total :
    ∀ (fuel : Nat) (s : MSState) (row col : Int),
      WFShape s → -(s.rows : Int) ≤ row → row < s.rows →
      -(s.cols : Int) ≤ col → col < s.cols →
      hiddenCount s + 1 ≤ fuel →
      ∃ t, revealF fuel s row col = some t := by
  intro fuel
  induction fuel with
  | zero =>
    intro s row col _ _ _ _ _ hfl
    omega
  | succ f ih =>
    intro s row col hsh hr1 hr2 hc1 hc2 hfl
    obtain ⟨ri, hri, hrilt⟩ := pyIdx_isSome s.rows row hr1 hr2
    obtain ⟨ci, hci, hcilt⟩ := pyIdx_isSome s.cols col hc1 hc2
    obtain ⟨brow, hbrow⟩ :=
      get?_exists (l := s.buttons) (k := ri) (by rw [hsh.1]; exact hrilt)
    obtain ⟨btn, hbtn⟩ := get?_exists (l := brow) (k := ci)
      (by rw [hsh.2.1 brow (List.get?_mem hbrow)]; exact hcilt)
    obtain ⟨bdrow, hbdrow⟩ :=
      get?_exists (l := s.board) (k := ri) (by rw [hsh.2.2.1]; exact hrilt)
    obtain ⟨count, hcount⟩ := get?_exists (l := bdrow) (k := ci)
      (by rw [hsh.2.2.2 bdrow (List.get?_mem hbdrow)]; exact hcilt)
    rw [revealF_succ_unfold f s row col ri ci brow btn bdrow count hsh hri
      hbrow hci hbtn hbdrow hcount]
    by_cases hd : btn.disabled
    · rw [if_pos hd]
      exact ⟨s, rfl⟩
    · rw [if_neg hd]
      by_cases hcnt : 0 < count
      · rw [if_pos hcnt]
        exact ⟨_, rfl⟩
      · rw [if_neg hcnt]
        have hdf : btn.disabled = false := Bool.eq_false_iff.mpr hd
        have hrel1 := set_step_rel s ri ci brow btn ⟨true, btn.text⟩ hbrow
          hbtn hdf rfl
        have hhide := hiddenCount_set s ri ci brow btn ⟨true, btn.text⟩
          hbrow hbtn hdf rfl
        have hsh1 := WFShape.of_rel hrel1 hsh
        have hstep : ∀ x o, o ∈ offsets9 →
            (WFShape x ∧ x.rows = s.rows ∧ x.cols = s.cols ∧
              hiddenCount x + 1 ≤ hiddenCount s) →
            ∃ y, floodStep f s.rows s.cols row col x o = some y ∧
              (WFShape y ∧ y.rows = s.rows ∧ y.cols = s.cols ∧
                hiddenCount y + 1 ≤ hiddenCount s) := by
          intro x o _ hQ
          obtain ⟨hshx, hxr, hxc, hxh⟩ := hQ
          unfold floodStep
          by_cases hg : 0 ≤ row + o.1 ∧ row + o.1 < (s.rows : Int) ∧
              0 ≤ col + o.2 ∧ col + o.2 < (s.cols : Int)
          · rw [if_pos hg]
            obtain ⟨y, hy⟩ := ih x (row + o.1) (col + o.2) hshx
              (by rw [hxr]; omega) (by rw [hxr]; omega)
              (by rw [hxc]; omega) (by rw [hxc]; omega) (by omega)
            have hrely := revealF_rel f x _ _ y hy
            exact ⟨y, hy, WFShape.of_rel hrely hshx,
              hrely.rows_eq.trans hxr, hrely.cols_eq.trans hxc,
              by have := hrely.hid_le; omega⟩
          · rw [if_neg hg]
            exact ⟨x, rfl, hshx, hxr, hxc, hxh⟩
        obtain ⟨t, hfold, _⟩ := foldlM_total
          (floodStep f s.rows s.cols row col)
          (fun x => WFShape x ∧ x.rows = s.rows ∧ x.cols = s.cols ∧
            hiddenCount x + 1 ≤ hiddenCount s)
          offsets9 hstep _ ⟨hsh1, rfl, rfl, by omega⟩
        exact ⟨t, hfold⟩

/-- One neighbour-loop step relates its start and end states. -/
theorem floodStep_rel (f : Nat) (rows cols : Nat) (row col : Int) :
    ∀ x o y, floodStep f rows cols row col x o = some y → RevealRel x y := by
  intro x o y hf
  unfold floodStep at hf
  split_ifs at hf with hg
  · exact revealF_rel f x _ _ y hf
  · cases hf
    exact revealRel_refl x

/-- The whole neighbour loop relates its start and end states. -/
theorem floodFold_rel (f rows cols : Nat) (row col : Int) (x t : MSState)
    (h : List.foldlM (floodStep f rows cols row col) x offsets9 = some t) :
    RevealRel x t :=
  foldlM_chain _ (fun _ => True) RevealRel revealRel_refl
    (fun x y z => RevealRel.comp) offsets9
    (fun x o y _ _ hf => ⟨floodStep_rel f rows cols row col x o y hf, trivial⟩)
    x t trivial h

/-- A successful reveal call leaves its own target cell revealed. -/
theorem revealF_self_revealed (f : Nat) (s : MSState) (row col : Int)
    (t : MSState) (ri ci : Nat) (brow : List MSButton)
    (hri : pyIdx s.buttons.length row = some ri)
    (hbrow : s.buttons.get? ri = some brow)
    (hci : pyIdx brow.length col = some ci)
    (h : revealF (f + 1) s row col = some t) :
    revealedAt t (ri, ci) = some true := by
  obtain ⟨ri', ci', brow', btn, h1, h2, h3, h4, hcase⟩ :=
    revealF_cases f s row col t h
  rw [hri] at h1
  cases h1
  rw [hbrow] at h2
  cases h2
  rw [hci] at h3
  cases h3
  rcases hcase with ⟨hd, ht⟩ | ⟨hd, count, btn', hd', hcase⟩
  · rw [ht]
    unfold revealedAt btnAt?
    rw [hbrow, Option.some_bind, h4, Option.map_some', hd]
  · have hcilt : ci < brow.length := (List.get?_eq_some.mp h4).1
    have hset := btnAt_set s ri ci brow btn' hbrow hcilt
    have hrev1 : revealedAt
        { s with buttons := s.buttons.set ri (brow.set ci btn') } (ri, ci) =
        some true := by
      unfold revealedAt
      rw [hset (ri, ci), if_pos rfl, Option.map_some', hd']
    rcases hcase with ⟨_, ht⟩ | ⟨_, hfold⟩
    · rw [ht]
      exact hrev1
    · exact (floodFold_rel f s.rows s.cols row col _ t hfold).mono _ hrev1

/-- Between two states: every cell that flipped from hidden to revealed and
stores count zero has all its in-grid 8-neighbours revealed at the end.
This captures that the flood recursion always runs at freshly revealed
zero-count cells. -/
def NewClosed (s t : MSState) : Prop :=
  ∀ p, revealedAt s p = some false → revealedAt t p = some true →
    boardAt? s p = some 0 →
    ∀ q, q.1 < s.rows → q.2 < s.cols → adj8 p q →
      revealedAt t q = some true

theorem boardAt_congr {x y : MSState} (h : y.board = x.board)
    (p : Nat × Nat) : boardAt? y p = boardAt? x p := by
  unfold boardAt?
  rw [h]

theorem newClosed_refl (x : MSState) : NewClosed x x := by
  intro p hpf hpt
  rw [hpf] at hpt
  exact absurd hpt (by simp)

theorem newClosed_comp {x y z : MSState} (rxy : RevealRel x y)
    (ryz : RevealRel y z) (nxy : NewClosed x y) (nyz : NewClosed y z) :
    NewClosed x z := by
  intro p hpf hpt hb q hq1 hq2 hadj
  rcases rxy.delta p with he | ⟨_, ht⟩
  · have hyf : revealedAt y p = some false := he.trans hpf
    exact nyz p hyf hpt (by rw [boardAt_congr rxy.board_eq]; exact hb) q
      (by rw [rxy.rows_eq]; exact hq1) (by rw [rxy.cols_eq]; exact hq2) hadj
  · exact ryz.mono q (nxy p hpf ht hb q hq1 hq2 hadj)

/-- The neighbour loop of a zero-count reveal preserves NewClosed. -/
theorem floodFold_newClosed (f rows cols : Nat) (row col : Int)
    (Q : MSState → Prop)
    (hstep : ∀ x o y, o ∈ offsets9 → Q x →
      floodStep f rows cols row col x o = some y → NewClosed x y ∧ Q y) :
    ∀ x t, Q x → List.foldlM (floodStep f rows cols row col) x offsets9 =
      some t → NewClosed x t := by
  intro x t hQ h
  have := foldlM_chain (floodStep f rows cols row col) Q
    (fun a b => RevealRel a b ∧ NewClosed a b)
    (fun a => ⟨revealRel_refl a, newClosed_refl a⟩)
    (fun a b c hab hbc =>
      ⟨hab.1.comp hbc.1, newClosed_comp hab.1 hbc.1 hab.2 hbc.2⟩)
    offsets9
    (fun a o b ho hq hf =>
      ⟨⟨floodStep_rel f rows cols row col a o b hf, (hstep a o b ho hq hf).1⟩,
        (hstep a o b ho hq hf).2⟩)
    x t hQ h
  exact this.2

/-- A reveal call started at in-grid nonnegative coordinates of a
well-formed state yields a NewClosed pair: freshly revealed zero-count
cells have every in-grid neighbour revealed afterwards. -/
theorem revealF_newClosed :
    ∀ (fuel : Nat) (s : MSState) (rn cn : Nat) (t : MSState),
      WFShape s → rn < s.rows → cn < s.cols →
      revealF fuel s (rn : Int) (cn : Int) = some t → NewClosed s t := by
  intro fuel
  induction fuel with
  | zero =>
    intro s rn cn t _ _ _ h
    exact absurd h (by rw [revealF]; simp)
  | succ f ih =>
    intro s rn cn t hsh hrn hcn h
    have hri : pyIdx s.rows (rn : Int) = some rn := pyIdx_nat _ _ hrn
    have hci : pyIdx s.cols (cn : Int) = some cn := pyIdx_nat _ _ hcn
    obtain ⟨brow, hbrow⟩ :=
      get?_exists (l := s.buttons) (k := rn) (by rw [hsh.1]; exact hrn)
    obtain ⟨btn, hbtn⟩ := get?_exists (l := brow) (k := cn)
      (by rw [hsh.2.1 brow (List.get?_mem hbrow)]; exact hcn)
    obtain ⟨bdrow, hbdrow⟩ :=
      get?_exists (l := s.board) (k := rn) (by rw [hsh.2.2.1]; exact hrn)
    obtain ⟨count, hcount⟩ := get?_exists (l := bdrow) (k := cn)
      (by rw [hsh.2.2.2 bdrow (List.get?_mem hbdrow)]; exact hcn)
    have hboardc : boardAt? s (rn, cn) = some count := by
      unfold boardAt?
      rw [hbdrow, Option.some_bind, hcount]
    rw [revealF_succ_unfold f s _ _ rn cn brow btn bdrow count hsh hri
      hbrow hci hbtn hbdrow hcount] at h
    by_cases hd : btn.disabled
    · rw [if_pos hd] at h
      cases h
      exact newClosed_refl s
    · rw [if_neg hd] at h
      have hdf : btn.disabled = false := Bool.eq_false_iff.mpr hd
      have hcilt : cn < brow.length := by
        rw [hsh.2.1 brow (List.get?_mem hbrow)]
        exact hcn
      by_cases hcnt : 0 < count
      · rw [if_pos hcnt] at h
        cases h
        intro p hpf hpt hb q hq1 hq2 hadj
        have hset := btnAt_set s rn cn brow ⟨true, toString count⟩ hbrow hcilt
        by_cases hpe : p = (rn, cn)
        · subst hpe
          rw [hb] at hboardc
          cases hboardc
          omega
        · unfold revealedAt at hpt
          rw [hset p, if_neg hpe] at hpt
          unfold revealedAt at hpf
          rw [hpf] at hpt
          exact absurd hpt (by simp)
      · rw [if_neg hcnt] at h
        have hzero : count = 0 := by omega
        have hrel1 := set_step_rel s rn cn brow btn ⟨true, btn.text⟩ hbrow
          hbtn hdf rfl
        have hsh1 := WFShape.of_rel hrel1 hsh
        have hset := btnAt_set s rn cn brow ⟨true, btn.text⟩ hbrow hcilt
        -- the invariant carried through the fold
        have hstep : ∀ x o y, o ∈ offsets9 →
            (WFShape x ∧ x.rows = s.rows ∧ x.cols = s.cols) →
            floodStep f s.rows s.cols (rn : Int) (cn : Int) x o = some y →
            NewClosed x y ∧
              (WFShape y ∧ y.rows = s.rows ∧ y.cols = s.cols) := by
          intro x o y _ hQ hf
          obtain ⟨hshx, hxr, hxc⟩ := hQ
          have hrely := floodStep_rel f s.rows s.cols _ _ x o y hf
          refine ⟨?_, WFShape.of_rel hrely hshx,
            hrely.rows_eq.trans hxr, hrely.cols_eq.trans hxc⟩
          unfold floodStep at hf
          split_ifs at hf with hg
          · obtain ⟨hg1, hg2, hg3, hg4⟩ := hg
            have he1 : ((rn : Int) + o.1) = (((rn : Int) + o.1).toNat : Int) :=
              (Int.toNat_of_nonneg hg1).symm
            have he2 : ((cn : Int) + o.2) = (((cn : Int) + o.2).toNat : Int) :=
              (Int.toNat_of_nonneg hg3).symm
            rw [he1, he2] at hf
            exact ih x _ _ y hshx (by rw [hxr]; omega) (by rw [hxc]; omega) hf
          · cases hf
            exact newClosed_refl x
        have hnc1 : NewClosed
            { s with buttons := s.buttons.set rn (brow.set cn ⟨true, btn.text⟩) }
            t :=
          floodFold_newClosed f s.rows s.cols (rn : Int) (cn : Int)
            (fun x => WFShape x ∧ x.rows = s.rows ∧ x.cols = s.cols)
            hstep _ t ⟨hsh1, hrel1.rows_eq, hrel1.cols_eq⟩ h
        -- every in-grid neighbour of the centre is revealed in t
        have hcenter : ∀ q : Nat × Nat, q.1 < s.rows → q.2 < s.cols →
            adj8 (rn, cn) q → revealedAt t q = some true := by
          intro q hq1 hq2 hadj
          obtain ⟨hne, ha1, ha2, ha3, ha4⟩ := hadj
          obtain ⟨q1, q2⟩ := q
          have hd1 : (q1 : Int) - rn = -1 ∨ (q1 : Int) - rn = 0 ∨
              (q1 : Int) - rn = 1 := by
            simp only at ha1 ha2
            omega
          have hd2 : (q2 : Int) - cn = -1 ∨ (q2 : Int) - cn = 0 ∨
              (q2 : Int) - cn = 1 := by
            simp only at ha3 ha4
            omega
          have hmem : (((q1 : Int) - rn, (q2 : Int) - cn) : Int × Int) ∈
              offsets9 := by
            rcases hd1 with h1 | h1 | h1 <;> rcases hd2 with h2 | h2 | h2 <;>
              simp [offsets9, Prod.ext_iff, h1, h2]
          refine foldlM_post (floodStep f s.rows s.cols (rn : Int) (cn : Int))
            (fun x => WFShape x ∧ x.rows = s.rows ∧ x.cols = s.cols)
            (fun z => revealedAt z (q1, q2) = some true)
            (((q1 : Int) - rn, (q2 : Int) - cn)) offsets9 hmem
            (fun x o y ho hq hf => (hstep x o y ho hq hf).2)
            (fun x o y ho hf hG =>
              (floodStep_rel f s.rows s.cols _ _ x o y hf).mono _ hG)
            ?_ _ t ⟨hsh1, hrel1.rows_eq, hrel1.cols_eq⟩ h
          intro x y hQ hf
          obtain ⟨hshx, hxr, hxc⟩ := hQ
          unfold floodStep at hf
          rw [if_pos (by constructor <;> [omega; constructor <;>
            [omega; constructor <;> omega]])] at hf
          have he1 : ((rn : Int) + ((q1 : Int) - rn)) = ((q1 : Nat) : Int) :=
            by omega
          have he2 : ((cn : Int) + ((q2 : Int) - cn)) = ((q2 : Nat) : Int) :=
            by omega
          rw [he1, he2] at hf
          cases f with
          | zero => exact absurd hf (by rw [revealF]; simp)
          | succ f' =>
            have hq1x : q1 < x.buttons.length := by
              rw [hshx.1, hxr]
              exact hq1
            obtain ⟨brw, hbrw⟩ := get?_exists (l := x.buttons) (k := q1) hq1x
            refine revealF_self_revealed f' x _ _ y q1 q2 brw ?_ hbrw ?_ hf
            · rw [hshx.1, hxr]
              exact pyIdx_nat _ _ hq1
            · rw [hshx.2.1 brw (List.get?_mem hbrw), hxc]
              exact pyIdx_nat _ _ hq2
        -- assemble
        intro p hpf hpt hb q hq1 hq2 hadj
        by_cases hpe : p = (rn, cn)
        · subst hpe
          exact hcenter q hq1 hq2 hadj
        · have hpf1 : revealedAt
              { s with buttons := s.buttons.set rn (brow.set cn ⟨true, btn.text⟩) }
              p = some false := by
            unfold revealedAt
            rw [hset p, if_neg hpe]
            exact hpf
          exact hnc1 p hpf1 hpt hb q hq1 hq2 hadj

/-- Every position of a well-formed state's grid stores a count. -/
theorem boardAt_isSome_of_shape (s : MSState) (h : WFShape s)
    (p : Nat × Nat) (hp1 : p.1 < s.rows) (hp2 : p.2 < s.cols) :
    ∃ n, boardAt? s p = some n := by
  obtain ⟨r, c⟩ := p
  have hr : r < s.board.length := by
    rw [h.2.2.1]
    exact hp1
  cases hrow : s.board.get? r with
  | none => exact absurd (List.get?_eq_none.mp hrow) (by omega)
  | some row =>
    have hlen : row.length = s.cols := h.2.2.2 row (List.get?_mem hrow)
    have hc : c < row.length := by
      rw [hlen]
      exact hp2
    cases hn : row.get? c with
    | none => exact absurd (List.get?_eq_none.mp hn) (by omega)
    | some n =>
      exact ⟨n, by unfold boardAt?; rw [hrow, Option.some_bind, hn]⟩

/-- Every position of a well-formed state's grid has a revealed / hidden
status. -/
theorem revealedAt_isSome_of_shape (s : MSState) (h : WFShape s)
    (p : Nat × Nat) (hp1 : p.1 < s.rows) (hp2 : p.2 < s.cols) :
    revealedAt s p = some true ∨ revealedAt s p = some false := by
  obtain ⟨btn, hbtn⟩ := btnAt_isSome_of_shape s h p ⟨hp1, hp2⟩
  unfold revealedAt
  rw [hbtn, Option.map_some']
  cases hbd : btn.disabled
  · exact Or.inr rfl
  · exact Or.inl rfl

/-- Only cells of the hidden zero region of the clicked cell, cells of its
still-hidden border, or cells that were already revealed, are revealed when
a reveal call runs at a position of the region (or at an already revealed
or border position). -/
theorem revealF_subset (s0 : MSState) (c : Nat × Nat) (hsh0 : WFShape s0) :
    ∀ (fuel : Nat) (x : MSState) (rn cn : Nat) (t : MSState),
      WFShape x → x.rows = s0.rows → x.cols = s0.cols →
      x.board = s0.board →
      (∀ p, revealedAt s0 p = some true → revealedAt x p = some true) →
      rn < x.rows → cn < x.cols →
      (inRegionH s0 c (rn, cn) ∨ inHiddenBorder s0 c (rn, cn) ∨
        revealedAt x (rn, cn) = some true) →
      revealF fuel x (rn : Int) (cn : Int) = some t →
      ∀ p, revealedAt t p = some true →
        revealedAt x p = some true ∨ amendedSet s0 c p := by
  intro fuel
  induction fuel with
  | zero =>
    intro x rn cn t _ _ _ _ _ _ _ _ h
    exact absurd h (by rw [revealF]; simp)
  | succ f ih =>
    intro x rn cn t hshx hxr hxc hxb hmon hrn hcn hpos h
    have hri : pyIdx x.rows (rn : Int) = some rn := pyIdx_nat _ _ hrn
    have hci : pyIdx x.cols (cn : Int) = some cn := pyIdx_nat _ _ hcn
    obtain ⟨brow, hbrow⟩ :=
      get?_exists (l := x.buttons) (k := rn) (by rw [hshx.1]; exact hrn)
    obtain ⟨btn, hbtn⟩ := get?_exists (l := brow) (k := cn)
      (by rw [hshx.2.1 brow (List.get?_mem hbrow)]; exact hcn)
    obtain ⟨bdrow, hbdrow⟩ :=
      get?_exists (l := x.board) (k := rn) (by rw [hshx.2.2.1]; exact hrn)
    obtain ⟨count, hcount⟩ := get?_exists (l := bdrow) (k := cn)
      (by rw [hshx.2.2.2 bdrow (List.get?_mem hbdrow)]; exact hcn)
    have hboardc : boardAt? x (rn, cn) = some count := by
      unfold boardAt?
      rw [hbdrow, Option.some_bind, hcount]
    have hboardc0 : boardAt? s0 (rn, cn) = some count := by
      rw [← boardAt_congr hxb]
      exact hboardc
    have hcilt : cn < brow.length := by
      rw [hshx.2.1 brow (List.get?_mem hbrow)]
      exact hcn
    rw [revealF_succ_unfold f x _ _ rn cn brow btn bdrow count hshx hri
      hbrow hci hbtn hbdrow hcount] at h
    by_cases hd : btn.disabled
    · rw [if_pos hd] at h
      cases h
      intro p hp
      exact Or.inl hp
    · rw [if_neg hd] at h
      have hdf : btn.disabled = false := Bool.eq_false_iff.mpr hd
      have hhidx : revealedAt x (rn, cn) = some false := by
        unfold revealedAt btnAt?
        rw [hbrow, Option.some_bind, hbtn, Option.map_some', hdf]
      have hpos' : inRegionH s0 c (rn, cn) ∨ inHiddenBorder s0 c (rn, cn) := by
        rcases hpos with hp | hp | hp
        · exact Or.inl hp
        · exact Or.inr hp
        · rw [hhidx] at hp
          exact absurd hp (by simp)
      have hset := fun (b : MSButton) => btnAt_set x rn cn brow b hbrow hcilt
      by_cases hcnt : 0 < count
      · rw [if_pos hcnt] at h
        cases h
        intro p hp
        by_cases hpe : p = (rn, cn)
        · subst hpe
          exact Or.inr hpos'
        · unfold revealedAt at hp
          rw [hset _ p, if_neg hpe] at hp
          exact Or.inl hp
      · rw [if_neg hcnt] at h
        have hzero : boardAt? s0 (rn, cn) = some 0 := by
          rw [hboardc0]
          congr 1
          omega
        have hcreg : inRegionH s0 c (rn, cn) := by
          rcases hpos' with hp | hp
          · exact hp
          · obtain ⟨_, _, ⟨n, hbn, hn0⟩, _⟩ := hp
            rw [hzero] at hbn
            cases hbn
            exact absurd rfl hn0
        have hrel1 := set_step_rel x rn cn brow btn ⟨true, btn.text⟩ hbrow
          hbtn hdf rfl
        have hsh1 := WFShape.of_rel hrel1 hshx
        have hstep : ∀ a o b, o ∈ offsets9 →
            (WFShape a ∧ a.rows = s0.rows ∧ a.cols = s0.cols ∧
              a.board = s0.board ∧
              (∀ p, revealedAt s0 p = some true →
                revealedAt a p = some true)) →
            floodStep f x.rows x.cols (rn : Int) (cn : Int) a o = some b →
            (∀ p, revealedAt b p = some true →
              revealedAt a p = some true ∨ amendedSet s0 c p) ∧
            (WFShape b ∧ b.rows = s0.rows ∧ b.cols = s0.cols ∧
              b.board = s0.board ∧
              (∀ p, revealedAt s0 p = some true →
                revealedAt b p = some true)) := by
          intro a o b ho hQ hf
          obtain ⟨hsha, har, hac, hab, hamon⟩ := hQ
          have hrelab := floodStep_rel f x.rows x.cols _ _ a o b hf
          refine ⟨?_, WFShape.of_rel hrelab hsha,
            hrelab.rows_eq.trans har, hrelab.cols_eq.trans hac,
            hrelab.board_eq.trans hab,
            fun p hp => hrelab.mono p (hamon p hp)⟩
          unfold floodStep at hf
          split_ifs at hf with hg
          · obtain ⟨hg1, hg2, hg3, hg4⟩ := hg
            have hob : -1 ≤ o.1 ∧ o.1 ≤ 1 ∧ -1 ≤ o.2 ∧ o.2 ≤ 1 := by
              fin_cases ho <;>
                exact ⟨by decide, by decide, by decide, by decide⟩
            have he1 : ((rn : Int) + o.1) =
                ((((rn : Int) + o.1).toNat : Nat) : Int) :=
              (Int.toNat_of_nonneg hg1).symm
            have he2 : ((cn : Int) + o.2) =
                ((((cn : Int) + o.2).toNat : Nat) : Int) :=
              (Int.toNat_of_nonneg hg3).symm
            rw [he1, he2] at hf
            have hq1 : ((rn : Int) + o.1).toNat < s0.rows := by
              rw [← hxr]
              omega
            have hq2 : ((cn : Int) + o.2).toNat < s0.cols := by
              rw [← hxc]
              omega
            have hqpos : inRegionH s0 c
                (((rn : Int) + o.1).toNat, ((cn : Int) + o.2).toNat) ∨
                inHiddenBorder s0 c
                  (((rn : Int) + o.1).toNat, ((cn : Int) + o.2).toNat) ∨
                revealedAt a
                  (((rn : Int) + o.1).toNat, ((cn : Int) + o.2).toNat) =
                  some true := by
              by_cases hqe : ((((rn : Int) + o.1).toNat,
                  ((cn : Int) + o.2).toNat) : Nat × Nat) = (rn, cn)
              · rw [hqe]
                exact Or.inl hcreg
              · have hadj : adj8 (rn, cn)
                    (((rn : Int) + o.1).toNat, ((cn : Int) + o.2).toNat) := by
                  refine ⟨fun he => hqe he.symm, ?_, ?_, ?_, ?_⟩ <;>
                    simp only <;> omega
                obtain ⟨n, hbn⟩ := boardAt_isSome_of_shape s0 hsh0
                  (((rn : Int) + o.1).toNat, ((cn : Int) + o.2).toNat) hq1 hq2
                rcases revealedAt_isSome_of_shape s0 hsh0
                  (((rn : Int) + o.1).toNat, ((cn : Int) + o.2).toNat) hq1 hq2
                  with hrev | hrev
                · exact Or.inr (Or.inr (hamon _ hrev))
                · by_cases hn0 : n = 0
                  · subst hn0
                    exact Or.inl (Relation.ReflTransGen.tail hcreg
                      ⟨⟨⟨hq1, hq2⟩, hadj, hbn⟩, hrev⟩)
                  · exact Or.inr (Or.inl ⟨⟨hq1, hq2⟩, hrev, ⟨n, hbn, hn0⟩,
                      (rn, cn), hcreg, hadj⟩)
            exact ih a _ _ b hsha har hac hab hamon
              (by rw [har, ← hxr]; omega) (by rw [hac, ← hxc]; omega)
              hqpos hf
          · cases hf
            intro p hp
            exact Or.inl hp
        have hP := foldlM_chain
          (floodStep f x.rows x.cols (rn : Int) (cn : Int))
          (fun a => WFShape a ∧ a.rows = s0.rows ∧ a.cols = s0.cols ∧
            a.board = s0.board ∧
            (∀ p, revealedAt s0 p = some true → revealedAt a p = some true))
          (fun a b => ∀ p, revealedAt b p = some true →
            revealedAt a p = some true ∨ amendedSet s0 c p)
          (fun a p hp => Or.inl hp)
          (fun a b d hab hbd p hp => by
            rcases hbd p hp with hp' | hp'
            · exact hab p hp'
            · exact Or.inr hp')
          offsets9 hstep _ t
          ⟨hsh1, hrel1.rows_eq.trans hxr, hrel1.cols_eq.trans hxc,
            hrel1.board_eq.trans hxb,
            fun p hp => hrel1.mono p (hmon p hp)⟩ h
        intro p hp
        rcases hP p hp with hp' | hp'
        · by_cases hpe : p = (rn, cn)
          · subst hpe
            exact Or.inr (Or.inl hcreg)
          · unfold revealedAt at hp'
            rw [hset _ p, if_neg hpe] at hp'
            exact Or.inl hp'
        · exact Or.inr hp'

/-- Every cell of the hidden zero region of the clicked cell, and every
still-hidden bordering cell, is revealed by a successful reveal call at the
clicked cell. -/
theorem revealF_covers (s0 : MSState) (c : Nat × Nat) (fuel : Nat)
    (t : MSState) (hsh0 : WFShape s0) (hg1 : c.1 < s0.rows)
    (hg2 : c.2 < s0.cols) (hhid : revealedAt s0 c = some false)
    (hz : boardAt? s0 c = some 0)
    (h : revealF fuel s0 (c.1 : Int) (c.2 : Int) = some t) :
    ∀ p, amendedSet s0 c p → revealedAt t p = some true := by
  have hnc : NewClosed s0 t :=
    revealF_newClosed fuel s0 c.1 c.2 t hsh0 hg1 hg2 h
  have hcrev : revealedAt t c = some true := by
    cases fuel with
    | zero => exact absurd h (by rw [revealF]; simp)
    | succ f =>
      obtain ⟨brow, hbrow⟩ := get?_exists (l := s0.buttons) (k := c.1)
        (by rw [hsh0.1]; exact hg1)
      exact revealF_self_revealed f s0 _ _ t c.1 c.2 brow
        (by rw [hsh0.1]; exact pyIdx_nat _ _ hg1) hbrow
        (by rw [hsh0.2.1 brow (List.get?_mem hbrow)]
            exact pyIdx_nat _ _ hg2) h
  have hreg : ∀ p, inRegionH s0 c p →
      revealedAt t p = some true ∧ revealedAt s0 p = some false ∧
        boardAt? s0 p = some 0 ∧ inGrid s0 p := by
    intro p hp
    induction hp with
    | refl => exact ⟨hcrev, hhid, hz, hg1, hg2⟩
    | tail hab hstep ih =>
      obtain ⟨⟨hpg, hpadj, hpb⟩, hpf⟩ := hstep
      obtain ⟨hbt, hbf, hbb, hbg⟩ := ih
      exact ⟨hnc _ hbf hbt hbb _ hpg.1 hpg.2 hpadj, hpf, hpb, hpg⟩
  intro p hp
  rcases hp with hp | hp
  · exact (hreg p hp).1
  · obtain ⟨hg, hhidp, ⟨n, hbn, hn0⟩, q, hq, hadj⟩ := hp
    obtain ⟨hqt, hqf, hqb, _⟩ := hreg q hq
    exact hnc q hqf hqt hqb p hg.1 hg.2 hadj

/-- The buttons grid is untouched by check_win. -/
theorem check_win_buttons (s : MSState) : (check_win s).buttons = s.buttons := by
  unfold check_win
  split_ifs <;> rfl

theorem check_win_revealedAt (s : MSState) (p : Nat × Nat) :
    revealedAt (check_win s) p = revealedAt s p := by
  unfold revealedAt btnAt?
  rw [check_win_buttons]

/-- check_win either shows the You Win dialog or changes no message. -/
theorem check_win_messages (s : MSState) :
    (check_win s).messages = s.messages ∨
    (check_win s).messages = s.messages ++ [Msg.youWin] := by
  unfold check_win
  split_ifs
  · exact Or.inr rfl
  · exact Or.inl rfl

/-- Cells of the hidden zero region are hidden. -/
theorem inRegionH_hidden (s : MSState) (c p : Nat × Nat)
    (hc : revealedAt s c = some false) (hp : inRegionH s c p) :
    revealedAt s p = some false := by
  rcases (Relation.ReflTransGen.cases_tail hp) with he | ⟨q, _, hstep⟩
  · rw [he]
    exact hc
  · exact hstep.2

/-- The amended reveal set is contained in the original claim's set: the
hidden zero region sits inside the full zero region and the hidden border
inside the full border. -/
theorem amendedSet_subset_orig (s : MSState) (c p : Nat × Nat)
    (hp : amendedSet s c p) : origClaimSet s c p := by
  have hmono : ∀ q, inRegionH s c q → inZeroRegion s c q := fun q hq =>
    Relation.ReflTransGen.mono (fun a b hab => hab.1) hq
  rcases hp with hp | hp
  · exact Or.inl (hmono p hp)
  · obtain ⟨hg, _, hb, q, hq, hadj⟩ := hp
    exact Or.inr ⟨hg, hb, q, hmono q hq, hadj⟩

/-- C6 (amended): for an in-bounds click on a Hidden non-mine cell with
stored count 0 while the game is in progress, the set of cells that become
Revealed is exactly the maximal 8-connected region of zero-count cells
reachable from the clicked cell through still-Hidden cells, together with
the still-Hidden non-zero-count cells bordering that region (propagation
stops at already-Revealed cells, which is why the original claim's maximal
zero region and full border overshoot); no other cell changes its
Hidden/Revealed state, and the whole revealed set stays inside the original
claim's region plus border. -/
theorem c6_flood_fill (s : MSState) (c : Nat × Nat) (fuel : Nat)
    (hWF : WF s) (hst : statusOf s = Status.inProgress)
    (hg : inGrid s c) (hhid : revealedAt s c = some false)
    (hz : boardAt? s c = some 0) (hnm : c ∉ s.mines)
    (hfuel : hiddenCount s + 1 ≤ fuel) :
    ∃ t, click fuel s c.1 c.2 = some t ∧
      (∀ p, (revealedAt s p = some false ∧ revealedAt t p = some true) ↔
        amendedSet s c p) ∧
      (∀ p, ¬ amendedSet s c p → revealedAt t p = revealedAt s p) ∧
      (∀ p, amendedSet s c p → origClaimSet s c p) := by
  obtain ⟨t0, ht0⟩ := revealF_total fuel s (c.1 : Int) (c.2 : Int) hWF.1
    (by omega) (by exact_mod_cast hg.1) (by omega)
    (by exact_mod_cast hg.2) hfuel
  have hrel := revealF_rel fuel s _ _ t0 ht0
  have hclick : click fuel s (c.1 : Int) (c.2 : Int) = some (check_win t0) := by
    unfold click
    rw [minesContains_natCast]
    have : ((c.1, c.2) : Nat × Nat) ∉ s.mines := hnm
    rw [decide_eq_false this]
    simp only [Bool.false_eq_true, if_false, ht0, Option.map_some']
  have hbtneq : ∀ p, revealedAt (check_win t0) p = revealedAt t0 p := by
    intro p
    unfold revealedAt btnAt?
    rw [check_win_buttons]
  have hsub := revealF_subset s c hWF.1 fuel s c.1 c.2 t0 hWF.1 rfl rfl rfl
    (fun p hp => hp) hg.1 hg.2 (Or.inl Relation.ReflTransGen.refl) ht0
  have hcov := revealF_covers s c fuel t0 hWF.1 hg.1 hg.2 hhid hz ht0
  refine ⟨check_win t0, hclick, ?_, ?_, fun p => amendedSet_subset_orig s c p⟩
  · intro p
    constructor
    · intro ⟨hpf, hpt⟩
      rw [hbtneq p] at hpt
      rcases hsub p hpt with hp | hp
      · rw [hp] at hpf
        exact absurd hpf (by simp)
      · exact hp
    · intro hp
      refine ⟨?_, by rw [hbtneq p]; exact hcov p hp⟩
      rcases hp with hp | hp
      · exact inRegionH_hidden s c p hhid hp
      · exact hp.2.1
  · intro p hp
    rw [hbtneq p]
    rcases hrel.delta p with he | ⟨hpf, hpt⟩
    · exact he
    · exact absurd ((hsub p hpt).resolve_left (by rw [hpf]; simp)) hp

/-- C6 witness: clicking the zero-count corner (2, 2) of the fresh 3 by 3
game with one mine at (0, 0). -/
theorem c6_witness :
    ∃ t, click 10 exE0 (((2 : Nat) : Int)) (((2 : Nat) : Int)) = some t ∧
      (∀ p, (revealedAt exE0 p = some false ∧
        revealedAt t p = some true) ↔ amendedSet exE0 (2, 2) p) ∧
      (∀ p, ¬ amendedSet exE0 (2, 2) p →
        revealedAt t p = revealedAt exE0 p) ∧
      (∀ p, amendedSet exE0 (2, 2) p → origClaimSet exE0 (2, 2) p) :=
  c6_flood_fill exE0 (2, 2) 10 (by decide) (by decide) (by decide)
    (by decide) (by decide) (by decide) (by decide)

/-- C6 counterexample: the state `exD1` is reachable (7 by 1 grid, one mine
at (2, 0), after the wrapped click (-2, 0) revealed only (5, 0)) and in
progress.  Clicking the hidden zero cell (4, 0) must, per the original
claim, reveal its maximal zero region {(4,0),(5,0),(6,0)} plus border
{(3,0)}; but (6, 0) — which lies in that region — stays hidden, because the
flood stops at the already-revealed (5, 0). -/
theorem c6_counterexample :
    init_game 7 1 1 rndC6 3 = some exD0 ∧
    click 10 exD0 (-2) 0 = some exD1 ∧
    statusOf exD1 = Status.inProgress ∧
    revealedAt exD1 (4, 0) = some false ∧
    boardAt? exD1 (4, 0) = some 0 ∧
    (4, 0) ∉ exD1.mines ∧
    click 10 exD1 4 0 = some exD2 ∧
    origClaimSet exD1 (4, 0) (6, 0) ∧
    revealedAt exD1 (6, 0) = some false ∧
    revealedAt exD2 (6, 0) = some false := by
  refine ⟨by decide, by decide, by decide, by decide, by decide, by decide,
    by decide, ?_, by decide, by decide⟩
  have h1 : zeroStep exD1 (4, 0) (5, 0) := ⟨by decide, by decide, by decide⟩
  have h2 : zeroStep exD1 (5, 0) (6, 0) := ⟨by decide, by decide, by decide⟩
  exact Or.inl ((Relation.ReflTransGen.single h1).trans
    (Relation.ReflTransGen.single h2))

/-! ### C9: the wrapped negative click -/

theorem pyIdx_emod (n : Nat) (i : Int) (h1 : -(n : Int) ≤ i) (h2 : i < n) :
    pyIdx n i = some ((i % (n : Int)).toNat) := by
  unfold pyIdx
  split_ifs with ha hb
  · congr 1
    rw [Int.emod_eq_of_lt ha.1 ha.2]
  · congr 1
    have h4 : i % (n : Int) = (i + (n : Int)) % (n : Int) := by
      conv_rhs => rw [show i + (n : Int) = i + (n : Int) * 1 by ring]
      rw [Int.add_mul_emod_self_left]
    rw [h4, Int.emod_eq_of_lt (by omega) (by omega)]
  · omega

/-- C9 (amended): for click coordinates with row in [-R, R) and col in
[-C, C), at least one of them negative, the call raises no error and never
triggers the loss branch (the mine-membership test fails for negative
coordinates); it reveals the cell at the wrapped index
(row mod R, col mod C) — even when that wrapped cell is a mine — and the
only dialog it can show is the You Win one.  (The original claim's
quantification also admitted an out-of-range second coordinate, where the
call raises instead: the companion counterexample.) -/
theorem c9_wrapped_click (s : MSState) (row col : Int) (fuel : Nat)
    (hWF : WF s)
    (hr1 : -(s.rows : Int) ≤ row) (hr2 : row < s.rows)
    (hc1 : -(s.cols : Int) ≤ col) (hc2 : col < s.cols)
    (hneg : row < 0 ∨ col < 0)
    (hfuel : hiddenCount s + 1 ≤ fuel) :
    ∃ t, click fuel s row col = some t ∧
      revealedAt t ((row % (s.rows : Int)).toNat,
        (col % (s.cols : Int)).toNat) = some true ∧
      (t.messages = s.messages ∨
        t.messages = s.messages ++ [Msg.youWin]) := by
  have hmc : minesContains s.mines row col = false := by
    unfold minesContains
    rw [if_neg]
    intro ⟨hx, hy⟩
    rcases hneg with h | h <;> omega
  obtain ⟨t0, ht0⟩ := revealF_total fuel s row col hWF.1 hr1 hr2 hc1 hc2 hfuel
  have hrel := revealF_rel fuel s _ _ t0 ht0
  have hself : revealedAt t0 ((row % (s.rows : Int)).toNat,
      (col % (s.cols : Int)).toNat) = some true := by
    cases fuel with
    | zero => omega
    | succ f =>
      have hri : pyIdx s.buttons.length row =
          some ((row % (s.rows : Int)).toNat) := by
        rw [hWF.1.1]
        exact pyIdx_emod s.rows row hr1 hr2
      obtain ⟨brow, hbrow⟩ := get?_exists (pyIdx_lt _ _ _ hri)
      refine revealF_self_revealed f s row col t0 _ _ brow hri hbrow ?_ ht0
      rw [hWF.1.2.1 brow (List.get?_mem hbrow)]
      exact pyIdx_emod s.cols col hc1 hc2
  refine ⟨check_win t0, ?_, ?_, ?_⟩
  · unfold click
    rw [hmc]
    simp only [Bool.false_eq_true, if_false, ht0, Option.map_some']
  · rw [check_win_revealedAt]
    exact hself
  · rcases check_win_messages t0 with hm | hm
    · exact Or.inl (hm.trans hrel.msgs_eq)
    · exact Or.inr (by rw [hm, hrel.msgs_eq])

/-- C9 witness: the click (-1, -1) on the fresh 2 by 2 game wraps to cell
(1, 1) and reveals it. -/
theorem c9_witness :
    ∃ t, click 9 exA0 (-1) (-1) = some t ∧
      revealedAt t (((-1 : Int) % ((exA0.rows : Nat) : Int)).toNat,
        ((-1 : Int) % ((exA0.cols : Nat) : Int)).toNat) = some true ∧
      (t.messages = exA0.messages ∨
        t.messages = exA0.messages ++ [Msg.youWin]) :=
  c9_wrapped_click exA0 (-1) (-1) 9 (by decide) (by decide) (by decide)
    (by decide) (by decide) (by decide) (by decide)

end Minesweeper
